import Mathlib

/-
Verification of the argument-classification engine of wllvm
(wllvm/copaarglistfilter.py, class CopaArgumentListFilter).

Tokens are modelled as lists of characters.  The Python regular
expressions of the default pattern table are compiled, anchored
patterns; each is embedded as an executable Boolean matcher with the
same semantics: `re.match` anchors at the start of the token, `$`
accepts the end of the token or a position just before one trailing
newline, and `.` does not match a newline.  Python's `\d` (Unicode
decimal digits) is modelled as the ASCII digits, the only ones the
tool's inputs use.

The parsing loop of `__init__` consumes a deque; it is embedded as a
fuel-indexed recursion (`runFuel`), with `run` supplying sufficient
fuel (one unit per consumed token plus one).  `none` models a Python
exception escaping the constructor (the IndexError raised by
`deque.popleft` inside `_shiftArgs` when a flag's arity exceeds the
remaining tokens).  Besides the final state, the run returns the
classification trace (which token was consumed in which role) and the
tokens left unconsumed in the deque when the loop stopped.
-/

/-- A command-line token (Python `str`), as a list of characters. -/
abbrev Tok := List Char

/-- Build a token from a string literal. -/
def t (s : String) : Tok := s.toList

/-- Python `$` in a non-MULTILINE pattern also matches just before one
trailing newline: the effective text for an end-anchored pattern drops
that newline. -/
def stripNl (tok : Tok) : Tok :=
  if tok.getLast? = some '\n' then tok.dropLast else tok

/-- Split a token at its last dot: `splitLastDot tok = some (a, e)`
with `tok = a ++ '.' :: e` and `e` dot-free; `none` if there is no
dot.  This is the decomposition an anchored pattern
`^.+\.(alt|...)$` chooses, since none of the alternatives in the
default tables contains a dot. -/
def splitLastDot (tok : Tok) : Option (Tok × Tok) :=
  let r := tok.reverse
  let eRev := r.takeWhile (· ≠ '.')
  match r.dropWhile (· ≠ '.') with
  | [] => none
  | _ :: aRev => some (aRev.reverse, eRev.reverse)

/-- Matcher for a pattern `^.+\.(e₁|e₂|...)$` whose alternatives
`exts` are dot-free literals: the token must end in a dot followed by
one of the alternatives, with a nonempty, newline-free part before
that dot (the `.+`). -/
def matchDotExt (exts : List Tok) (tok : Tok) : Bool :=
  match splitLastDot (stripNl tok) with
  | some (a, e) => decide (a ≠ []) && !a.contains '\n' && decide (e ∈ exts)
  | none => false

/-- The source-file extensions of the first default pattern,
`^.+\.(c|cc|cpp|C|cxx|i|s|S|bc)$`. -/
def srcExts : List Tok :=
  [t "c", t "cc", t "cpp", t "C", t "cxx", t "i", t "s", t "S", t "bc"]

/-- Matcher for `^.+\.(c|cc|cpp|C|cxx|i|s|S|bc)$`. -/
def matchSrcFile (tok : Tok) : Bool := matchDotExt srcExts tok

/-- The suffix alternative of the FORTRAN pattern:
`[fF](|[0-9][0-9]|or|OR|pp|PP)`. -/
def fortranExt (e : Tok) : Bool :=
  match e with
  | c :: rest =>
    (c = 'f' || c = 'F') &&
      (match rest with
       | [] => true
       | [d1, d2] =>
         (d1.isDigit && d2.isDigit) ||
           (decide ([d1, d2] = t "or") || decide ([d1, d2] = t "OR") ||
            decide ([d1, d2] = t "pp") || decide ([d1, d2] = t "PP"))
       | _ => false)
  | [] => false

/-- Matcher for the FORTRAN pattern `^.+\.([fF](|[0-9][0-9]|or|OR|pp|PP))$`. -/
def matchFortranFile (tok : Tok) : Bool :=
  match splitLastDot (stripNl tok) with
  | some (a, e) => decide (a ≠ []) && !a.contains '\n' && fortranExt e
  | none => false

/-- The object/library extensions of the pattern
`^.+\.(o|lo|So|so|po|a|dylib)$`. -/
def objExts : List Tok :=
  [t "o", t "lo", t "So", t "so", t "po", t "a", t "dylib"]

/-- Matcher for `^.+\.(o|lo|So|so|po|a|dylib)$`. -/
def matchObjFile (tok : Tok) : Bool := matchDotExt objExts tok

/-- Strip trailing `(\.\d)` groups from a reversed token: returns the
number of groups stripped and the remaining reversed token.  Since in
both versioned-library patterns the text before `(\.\d)+$` ends in a
non-digit letter, greedy stripping finds exactly the groups the
pattern consumes. -/
def stripDotDigitPairsRev : Tok → Nat × Tok
  | d :: '.' :: r =>
    if d.isDigit then
      let (n, r') := stripDotDigitPairsRev r
      (n + 1, r')
    else (0, d :: '.' :: r)
  | r => (0, r)

/-- Matcher for a versioned-library pattern `^.+\.(b₁|b₂)(\.\d)+$`
with dot-free base alternatives `bases`: strip at least one trailing
`.digit` group, then the rest must end in a dot followed by one of the
bases, preceded by a nonempty newline-free `.+`. -/
def matchVersioned (bases : List Tok) (tok : Tok) : Bool :=
  let (n, restRev) := stripDotDigitPairsRev (stripNl tok).reverse
  decide (1 ≤ n) &&
    (match splitLastDot restRev.reverse with
     | some (a, e) => decide (a ≠ []) && !a.contains '\n' && decide (e ∈ bases)
     | none => false)

/-- Matcher for `^.+\.dylib(\.\d)+$`. -/
def matchDylibVersioned (tok : Tok) : Bool := matchVersioned [t "dylib"] tok

/-- Matcher for `^.+\.(So|so)(\.\d)+$`. -/
def matchSoVersioned (tok : Tok) : Bool := matchVersioned [t "So", t "so"] tok

/-- Matcher for `^-O[1-9]+$`. -/
def matchOptNonZero (tok : Tok) : Bool :=
  match stripNl tok with
  | '-' :: 'O' :: ds => decide (ds ≠ []) && ds.all (fun c => '1' ≤ c && c ≤ '9')
  | _ => false

/-- Matcher for `^-O[0-9][0-9]+$`. -/
def matchOptMultiDigit (tok : Tok) : Bool :=
  match stripNl tok with
  | '-' :: 'O' :: ds => decide (2 ≤ ds.length) && ds.all (fun c => c.isDigit)
  | _ => false

/-- The search `re.search('\\.(s|S)$', infile)` used by `inputFileCallback`:
the file name ends in `.s` or `.S`. -/
def matchAssemblySuffix (infile : Tok) : Bool :=
  let u := stripNl infile
  (t ".s").isSuffixOf u || (t ".S").isSuffixOf u

/-- The mutable classification state owned by a
`CopaArgumentListFilter` instance (`self.*` in `__init__`). -/
structure FilterState where
  inputFiles : List Tok
  objectFiles : List Tok
  outputFilename : Option Tok
  compileArgs : List Tok
  linkArgs : List Tok
  forbiddenArgs : List Tok
  isVerbose : Bool
  isDependencyOnly : Bool
  isPreprocessOnly : Bool
  isAssembleOnly : Bool
  isAssembly : Bool
  isCompileOnly : Bool
  isEmitLLVM : Bool
  isStandardIn : Bool
deriving Repr, DecidableEq

/-- The state set up by `__init__` before the parsing loop. -/
def initialState : FilterState :=
  { inputFiles := []
    objectFiles := []
    outputFilename := none
    compileArgs := []
    linkArgs := []
    forbiddenArgs := []
    isVerbose := false
    isDependencyOnly := false
    isPreprocessOnly := false
    isAssembleOnly := false
    isAssembly := false
    isCompileOnly := false
    isEmitLLVM := false
    isStandardIn := false }

/-- Callback `standardInCallback`. -/
def standardInCallback (s : FilterState) (_flag : Tok) : FilterState :=
  { s with isStandardIn := true }

/-- Callback `inputFileCallback`: appends to `inputFiles` and sets `isAssembly`
when the file ends in `.s` or `.S`. -/
def inputFileCallback (s : FilterState) (infile : Tok) : FilterState :=
  let s1 := { s with inputFiles := s.inputFiles ++ [infile] }
  if matchAssemblySuffix infile then { s1 with isAssembly := true } else s1

/-- Callback `outputFileCallback`. -/
def outputFileCallback (s : FilterState) (_flag filename : Tok) : FilterState :=
  { s with outputFilename := some filename }

/-- Callback `objectFileCallback`. -/
def objectFileCallback (s : FilterState) (objfile : Tok) : FilterState :=
  { s with objectFiles := s.objectFiles ++ [objfile] }

/-- Callback `preprocessOnlyCallback`. -/
def preprocessOnlyCallback (s : FilterState) (_flag : Tok) : FilterState :=
  { s with isPreprocessOnly := true }

/-- Callback `assembleOnlyCallback`. -/
def assembleOnlyCallback (s : FilterState) (_flag : Tok) : FilterState :=
  { s with isAssembleOnly := true }

/-- Callback `verboseFlagCallback`. -/
def verboseFlagCallback (s : FilterState) (_flag : Tok) : FilterState :=
  { s with isVerbose := true }

/-- Callback `compileOnlyCallback`. -/
def compileOnlyCallback (s : FilterState) (_flag : Tok) : FilterState :=
  { s with isCompileOnly := true }

/-- Callback `compileUnaryCallback`. -/
def compileUnaryCallback (s : FilterState) (flag : Tok) : FilterState :=
  { s with compileArgs := s.compileArgs ++ [flag] }

/-- Callback `warningLinkUnaryCallback`: the flag is recognized but forbidden;
it is recorded (with a warning) in `forbiddenArgs`. -/
def warningLinkUnaryCallback (s : FilterState) (flag : Tok) : FilterState :=
  { s with forbiddenArgs := s.forbiddenArgs ++ [flag] }

/-- Callback `linkingGroupCallback`: extends `linkArgs` with the whole group. -/
def linkingGroupCallback (s : FilterState) (args : List Tok) : FilterState :=
  { s with linkArgs := s.linkArgs ++ args }

/-- Names for the bound-method callbacks stored in the default rule
tables. -/
inductive Callback where
  | standardIn
  | outputFile
  | compileOnly
  | preprocessOnly
  | assembleOnly
  | verboseFlag
  | warningLinkUnary
  | inputFile
  | objectFile
deriving Repr, DecidableEq

/-- Dispatch a callback on the matched flag and its consumed trailing
arguments (the `handler(self, currentItem, *flagArgs)` call).  Every
table entry's arity matches its callback's parameter count, so the
catch-all rows are never reached on table-driven calls. -/
def applyCallback : Callback → FilterState → Tok → List Tok → FilterState
  | .standardIn, s, flag, _ => standardInCallback s flag
  | .outputFile, s, flag, args =>
    match args with
    | [filename] => outputFileCallback s flag filename
    | _ => s
  | .compileOnly, s, flag, _ => compileOnlyCallback s flag
  | .preprocessOnly, s, flag, _ => preprocessOnlyCallback s flag
  | .assembleOnly, s, flag, _ => assembleOnlyCallback s flag
  | .verboseFlag, s, flag, _ => verboseFlagCallback s flag
  | .warningLinkUnary, s, flag, _ => warningLinkUnaryCallback s flag
  | .inputFile, s, flag, _ => inputFileCallback s flag
  | .objectFile, s, flag, _ => objectFileCallback s flag

/-- The default exact-match table `defaultArgExactMatches`:
token ↦ (arity, callback), in source order. -/
def defaultArgExactMatches : List (Tok × Nat × Callback) :=
  [ (t "-", (0, .standardIn)),
    (t "-o", (1, .outputFile)),
    (t "-c", (0, .compileOnly)),
    (t "-E", (0, .preprocessOnly)),
    (t "-S", (0, .assembleOnly)),
    (t "--verbose", (0, .verboseFlag)),
    (t "--version", (0, .compileOnly)),
    (t "-v", (0, .compileOnly)),
    (t "-O", (0, .warningLinkUnary)),
    (t "-O0", (0, .warningLinkUnary)),
    (t "-O1", (0, .warningLinkUnary)),
    (t "-O2", (0, .warningLinkUnary)),
    (t "-O3", (0, .warningLinkUnary)),
    (t "-Os", (0, .warningLinkUnary)),
    (t "-Ofast", (0, .warningLinkUnary)),
    (t "-Og", (0, .warningLinkUnary)) ]

/-- Lookup `currentItem in argExactMatches` / `argExactMatches[currentItem]`. -/
def argExactMatches (tok : Tok) : Option (Nat × Callback) :=
  defaultArgExactMatches.lookup tok

/-- The default pattern table `defaultArgPatterns`:
matcher ↦ (arity, callback), in source (insertion) order. -/
def defaultArgPatterns : List ((Tok → Bool) × Nat × Callback) :=
  [ (matchSrcFile, (0, .inputFile)),
    (matchFortranFile, (0, .inputFile)),
    (matchObjFile, (0, .objectFile)),
    (matchDylibVersioned, (0, .objectFile)),
    (matchSoVersioned, (0, .objectFile)),
    (matchOptNonZero, (0, .warningLinkUnary)),
    (matchOptMultiDigit, (0, .warningLinkUnary)) ]

/-- The loop `for pattern, (arity, handler) in argPatterns.items(): if
re.match(pattern, currentItem): ... break` — the first matching
pattern wins. -/
def findPattern (tok : Tok) : Option (Nat × Callback) :=
  (defaultArgPatterns.find? (fun e => e.1 tok)).map (·.2)

/-- Helper `_shiftArgs`: pop `nargs` tokens off the front of the queue;
`none` models the IndexError raised by `popleft` on an empty deque. -/
def shiftArgs : Nat → List Tok → Option (List Tok × List Tok)
  | 0, q => some ([], q)
  | _ + 1, [] => none
  | n + 1, a :: q =>
    match shiftArgs n q with
    | none => none
    | some (ret, rest) => some (a :: ret, rest)

/-- The inner `while self._inputArgs:` loop of the
`-Wl,--start-group` branch: collect tokens up to and including
`-Wl,--end-group`, or all of them if the queue runs out first.
Returns the collected tokens, whether the group was terminated, and
the remaining queue. -/
def collectGroup : List Tok → List Tok × Bool × List Tok
  | [] => ([], false, [])
  | x :: q =>
    if x = t "-Wl,--end-group" then ([x], true, q)
    else
      let (g, b, r) := collectGroup q
      (x :: g, b, r)

/-- A classification event: one consumed token together with the role
in which the loop consumed it. -/
inductive Ev where
  /-- the token was matched as a flag (exact table, pattern table, or
  the `-Wl,--start-group` marker) -/
  | flag (tk : Tok)
  /-- the token was consumed as a trailing argument of the preceding
  matched flag (arity consumption, or membership in a linker group) -/
  | arg (tk : Tok)
  /-- the token matched nothing and was folded into `compileArgs` -/
  | deflt (tk : Tok)
deriving Repr, DecidableEq

/-- The token a classification event consumed. -/
def Ev.tok : Ev → Tok
  | .flag tk => tk
  | .arg tk => tk
  | .deflt tk => tk

/-- Result of one iteration of the parsing loop: the updated state,
the events that consumed `currentItem` (and any trailing arguments it
took with it), and the remaining queue. -/
structure StepRes where
  next : FilterState
  consumed : List Ev
  rest : List Tok
deriving Repr, DecidableEq

/-- The body of the parsing loop for one `currentItem` popped off the
queue: exact-table dispatch, the `-Wl,--start-group` special case,
first-match pattern dispatch, or the unrecognized-flag default.
`none` is the IndexError escaping `_shiftArgs` when a matched flag's
arity exceeds the remaining queue. -/
def step (s : FilterState) (cur : Tok) (rest : List Tok) : Option StepRes :=
  match argExactMatches cur with
  | some (arity, cb) =>
    match shiftArgs arity rest with
    | none => none
    | some (flagArgs, rest') =>
      some ⟨applyCallback cb s cur flagArgs,
            Ev.flag cur :: flagArgs.map Ev.arg, rest'⟩
  | none =>
    if cur = t "-Wl,--start-group" then
      match collectGroup rest with
      | (grp, _, rest') =>
        some ⟨linkingGroupCallback s (cur :: grp),
              Ev.flag cur :: grp.map Ev.arg, rest'⟩
    else
      match findPattern cur with
      | some (arity, cb) =>
        match shiftArgs arity rest with
        | none => none
        | some (flagArgs, rest') =>
          some ⟨applyCallback cb s cur flagArgs,
                Ev.flag cur :: flagArgs.map Ev.arg, rest'⟩
      | none => some ⟨compileUnaryCallback s cur, [Ev.deflt cur], rest⟩

/-- One fuel-indexed unfolding of the parsing loop
`while (self._inputArgs and not (self.isAssembleOnly or
self.isPreprocessOnly)): ...`.  Returns the final state, the trace of
classification events, and the tokens left in the queue; `none` is a
propagating exception (arity underflow in `_shiftArgs`, or fuel
exhaustion, which `run` makes unreachable). -/
def runFuel : Nat → FilterState → List Tok → Option (FilterState × List Ev × List Tok)
  | 0, _, _ => none
  | fuel + 1, s, q =>
    if s.isAssembleOnly || s.isPreprocessOnly then some (s, [], q)
    else
      match q with
      | [] => some (s, [], [])
      | cur :: rest =>
        match step s cur rest with
        | none => none
        | some st =>
          match runFuel fuel st.next st.rest with
          | none => none
          | some (s', evs, left) => some (s', st.consumed ++ evs, left)

/-- The parsing loop with sufficient fuel: every iteration consumes at
least one token, so `q.length + 1` units never run out. -/
def run (s : FilterState) (q : List Tok) :
    Option (FilterState × List Ev × List Tok) :=
  runFuel (q.length + 1) s q

/-- Constructing `CopaArgumentListFilter(inputList)` with the default rule tables:
the state after `__init__` returns, the classification trace, and the
tokens left unconsumed in `self._inputArgs`. -/
def classify (l : List Tok) : Option (FilterState × List Ev × List Tok) :=
  run initialState l

/-- A token that matches no rule at all: not in the exact table, not
the linker-group marker, and matched by no pattern.  Such a token is
folded into `compileArgs` by the unrecognized-flag default. -/
def unmatched (tok : Tok) : Bool :=
  (argExactMatches tok).isNone &&
    decide (tok ≠ t "-Wl,--start-group") && (findPattern tok).isNone

/-- The text a `(\.\d)+` version suffix adds after the library
extension: one `.digit` group per element of `ds`. -/
def verTail (ds : List Char) : Tok :=
  (ds.map (fun d => ['.', d])).flatten

/-- A token "ending in an object/library suffix" in the sense of the
specification's pattern table: either a dot followed by one of the
plain object extensions `o|lo|So|so|po|a|dylib`, or a versioned
shared-library suffix — `.So`/`.so`/`.dylib` followed by one or more
`.digit` groups.  The part before the suffix is the pattern's `.+`:
nonempty and without a newline (Python's `.` does not cross
newlines). -/
def specObjSuffix (tok : Tok) : Prop :=
  (∃ a e, tok = a ++ '.' :: e ∧ a ≠ [] ∧ '\n' ∉ a ∧ '.' ∉ e ∧ e ∈ objExts) ∨
  (∃ a b ds, tok = a ++ '.' :: (b ++ verTail ds) ∧ a ≠ [] ∧ '\n' ∉ a ∧
    ds ≠ [] ∧ (∀ d ∈ ds, d.isDigit = true) ∧
    (b = t "So" ∨ b = t "so" ∨ b = t "dylib"))

/-- An optimization-level token in the sense of the claim: one of the
exact `-O` flags of the table, or `-O` followed by one or more (ASCII)
digits. -/
def specOptFlag (tok : Tok) : Prop :=
  tok ∈ [t "-O", t "-O0", t "-O1", t "-O2", t "-O3", t "-Os", t "-Ofast", t "-Og"] ∨
  ∃ ds, ds ≠ [] ∧ (∀ d ∈ ds, d.isDigit = true) ∧ tok = '-' :: 'O' :: ds

/-- Python `str.rfind`: the largest index at which `c` occurs in the
token, or `-1` if it does not occur. -/
def pyRfind (c : Char) : Tok → Int
  | [] => -1
  | x :: xs =>
    let r := pyRfind c xs
    if 0 ≤ r then r + 1
    else if x = c then 0 else -1

/-- Python `str.rstrip('/')` (used by `posixpath.split`). -/
def dropTrailingSlashes (l : Tok) : Tok :=
  (l.reverse.dropWhile (· = '/')).reverse

/-- Posix `os.path.split`: split at the last `'/'`; the head keeps
no trailing slashes unless it consists only of slashes. -/
def osPathSplit (p : Tok) : Tok × Tok :=
  let i := (pyRfind '/' p + 1).toNat
  let head := p.take i
  let tail := p.drop i
  if head ≠ [] ∧ ¬head.all (· = '/') then (dropTrailingSlashes head, tail)
  else (head, tail)

/-- Posix `os.path.splitext`: split off the extension at the last
dot, provided that dot lies after the last `'/'` and a non-dot
character stands between them (so a leading-dot file name such as
`.bashrc` has no extension). -/
def osPathSplitext (p : Tok) : Tok × Tok :=
  let sepIndex := pyRfind '/' p
  let dotIndex := pyRfind '.' p
  if sepIndex < dotIndex then
    let between := (p.drop (sepIndex + 1).toNat).take (dotIndex - sepIndex - 1).toNat
    if between.any (· ≠ '.') then (p.take dotIndex.toNat, p.drop dotIndex.toNat)
    else (p, [])
  else (p, [])

/-- Query `getOutputFilename`: the explicit `-o` path if one was recorded;
else, when compiling only, the first input file's base name with its
extension replaced by `.o`; else `a.out`.  `none` models the
IndexError `self.inputFiles[0]` raises when `inputFiles` is empty in
the compile-only branch. -/
def getOutputFilename (s : FilterState) : Option Tok :=
  match s.outputFilename with
  | some f => some f
  | none =>
    if s.isCompileOnly then
      match s.inputFiles with
      | [] => none
      | f :: _ =>
        let base := (osPathSplit f).2
        let root := (osPathSplitext base).1
        some (root ++ t ".o")
    else some (t "a.out")

/-- Query `getArtifactNames`: the `(objectFilename, bitcodeFilename)` pair
derived from one source file; the object name is dot-prefixed when
`hidden` is set, the bitcode name always is. -/
def getArtifactNames (srcFile : Tok) (hidden : Bool) : Tok × Tok :=
  let srcbase := (osPathSplit srcFile).2
  let srcroot := (osPathSplitext srcbase).1
  let objbase := if hidden then '.' :: (srcroot ++ t ".o") else srcroot ++ t ".o"
  let bcbase := '.' :: (srcroot ++ t ".o.bc")
  (objbase, bcbase)

/-! ### Lemmas about the queue-consumption helpers -/

theorem shiftArgs_spec {n : Nat} :
    ∀ {l r l' : List Tok}, shiftArgs n l = some (r, l') →
      r ++ l' = l ∧ r.length = n := by
  induction n with
  | zero =>
    intro l r l' h
    simp only [shiftArgs, Option.some.injEq, Prod.mk.injEq] at h
    obtain ⟨rfl, rfl⟩ := h
    simp
  | succ n ih =>
    intro l r l' h
    cases l with
    | nil => simp [shiftArgs] at h
    | cons a q =>
      simp only [shiftArgs] at h
      cases hs : shiftArgs n q with
      | none => rw [hs] at h; simp at h
      | some p =>
        obtain ⟨ret, rest⟩ := p
        rw [hs] at h
        simp only [Option.some.injEq, Prod.mk.injEq] at h
        obtain ⟨rfl, rfl⟩ := h
        obtain ⟨h1, h2⟩ := ih hs
        constructor
        · simp [← h1]
        · simp [h2]

theorem shiftArgs_length_le {n : Nat} {l r l' : List Tok}
    (h : shiftArgs n l = some (r, l')) : l'.length ≤ l.length := by
  obtain ⟨h1, _⟩ := shiftArgs_spec h
  calc l'.length ≤ r.length + l'.length := Nat.le_add_left _ _
    _ = l.length := by rw [← h1]; simp

theorem shiftArgs_append {n : Nat} :
    ∀ {l r l' q2 : List Tok}, shiftArgs n l = some (r, l') →
      shiftArgs n (l ++ q2) = some (r, l' ++ q2) := by
  induction n with
  | zero =>
    intro l r l' q2 h
    simp only [shiftArgs, Option.some.injEq, Prod.mk.injEq] at h ⊢
    obtain ⟨rfl, rfl⟩ := h
    simp
  | succ n ih =>
    intro l r l' q2 h
    cases l with
    | nil => simp [shiftArgs] at h
    | cons a q =>
      simp only [shiftArgs] at h ⊢
      cases hs : shiftArgs n q with
      | none => rw [hs] at h; simp at h
      | some p =>
        obtain ⟨ret, rest⟩ := p
        rw [hs] at h
        simp only [Option.some.injEq, Prod.mk.injEq] at h
        obtain ⟨rfl, rfl⟩ := h
        simp only [List.append_eq]
        rw [ih hs]

theorem shiftArgs_none_of_lt {n : Nat} :
    ∀ {l : List Tok}, l.length < n → shiftArgs n l = none := by
  induction n with
  | zero => intro l h; omega
  | succ n ih =>
    intro l h
    cases l with
    | nil => simp [shiftArgs]
    | cons a q =>
      simp only [List.length_cons, Nat.succ_lt_succ_iff] at h
      simp only [shiftArgs, ih h]

theorem collectGroup_spec :
    ∀ {q g r : List Tok} {b : Bool}, collectGroup q = (g, b, r) →
      g ++ r = q := by
  intro q
  induction q with
  | nil => intro g r b h; simp [collectGroup] at h; simp [h.1, h.2.2]
  | cons x q ih =>
    intro g r b h
    simp only [collectGroup] at h
    by_cases hx : x = t "-Wl,--end-group"
    · rw [if_pos hx] at h
      simp only [Prod.mk.injEq] at h
      obtain ⟨rfl, _, rfl⟩ := h
      simp
    · rw [if_neg hx] at h
      obtain ⟨g', b', r'⟩ : ∃ p : List Tok × Bool × List Tok, collectGroup q = p :=
        ⟨_, rfl⟩
      cases hq : collectGroup q with
      | mk g' p' =>
        obtain ⟨b', r'⟩ := p'
        rw [hq] at h
        simp only [Prod.mk.injEq] at h
        obtain ⟨rfl, _, rfl⟩ := h
        have := ih hq
        simp [← this]

theorem collectGroup_length_le {q g r : List Tok} {b : Bool}
    (h : collectGroup q = (g, b, r)) : r.length ≤ q.length := by
  have h1 := collectGroup_spec h
  calc r.length ≤ g.length + r.length := Nat.le_add_left _ _
    _ = q.length := by rw [← h1]; simp

theorem collectGroup_unterminated :
    ∀ {q g r : List Tok}, collectGroup q = (g, false, r) →
      g = q ∧ r = [] := by
  intro q
  induction q with
  | nil => intro g r h; simp [collectGroup] at h; simp [h.1, h.2]
  | cons x q ih =>
    intro g r h
    simp only [collectGroup] at h
    by_cases hx : x = t "-Wl,--end-group"
    · rw [if_pos hx] at h; simp at h
    · rw [if_neg hx] at h
      cases hq : collectGroup q with
      | mk g' p' =>
        obtain ⟨b', r'⟩ := p'
        rw [hq] at h
        simp only [Prod.mk.injEq] at h
        obtain ⟨rfl, hb, rfl⟩ := h
        obtain ⟨rfl, rfl⟩ := ih (hb ▸ hq)
        simp

theorem collectGroup_append_term :
    ∀ {q g r : List Tok} (q2 : List Tok), collectGroup q = (g, true, r) →
      collectGroup (q ++ q2) = (g, true, r ++ q2) := by
  intro q
  induction q with
  | nil => intro g r q2 h; simp [collectGroup] at h
  | cons x q ih =>
    intro g r q2 h
    simp only [collectGroup] at h ⊢
    by_cases hx : x = t "-Wl,--end-group"
    · rw [if_pos hx] at h ⊢
      simp only [Prod.mk.injEq] at h
      obtain ⟨rfl, _, rfl⟩ := h
      simp
    · rw [if_neg hx] at h ⊢
      cases hq : collectGroup q with
      | mk g' p' =>
        obtain ⟨b', r'⟩ := p'
        rw [hq] at h
        simp only [Prod.mk.injEq] at h
        obtain ⟨rfl, hb, rfl⟩ := h
        simp only [List.append_eq]
        rw [ih q2 (hb ▸ hq)]

theorem collectGroup_closed {g : List Tok} (rest : List Tok)
    (hg : t "-Wl,--end-group" ∉ g) :
    collectGroup (g ++ t "-Wl,--end-group" :: rest) =
      (g ++ [t "-Wl,--end-group"], true, rest) := by
  induction g with
  | nil => simp [collectGroup]
  | cons x g ih =>
    have hx : x ≠ t "-Wl,--end-group" := fun h => hg (h ▸ List.mem_cons_self x g)
    have hg' : t "-Wl,--end-group" ∉ g := fun h => hg (List.mem_cons_of_mem _ h)
    simp only [List.cons_append, collectGroup, if_neg hx, List.append_eq]
    rw [ih hg']

theorem collectGroup_no_end {q : List Tok} (hq : t "-Wl,--end-group" ∉ q) :
    collectGroup q = (q, false, []) := by
  induction q with
  | nil => simp [collectGroup]
  | cons x q ih =>
    have hx : x ≠ t "-Wl,--end-group" := fun h => hq (h ▸ List.mem_cons_self x q)
    have hq' : t "-Wl,--end-group" ∉ q := fun h => hq (List.mem_cons_of_mem _ h)
    simp only [collectGroup, if_neg hx, ih hq']

/-! ### Field-preservation facts about the callbacks -/

theorem applyCallback_compileArgs (cb : Callback) (s : FilterState)
    (flag : Tok) (args : List Tok) :
    (applyCallback cb s flag args).compileArgs = s.compileArgs := by
  cases cb <;>
    simp only [applyCallback, standardInCallback, compileOnlyCallback,
      preprocessOnlyCallback, assembleOnlyCallback, verboseFlagCallback,
      warningLinkUnaryCallback, inputFileCallback, objectFileCallback]
  case outputFile =>
    match args with
    | [filename] => rfl
    | [] => rfl
    | _ :: _ :: _ => rfl
  case inputFile => split <;> rfl

theorem linkingGroupCallback_flags (s : FilterState) (args : List Tok) :
    (linkingGroupCallback s args).isAssembleOnly = s.isAssembleOnly ∧
      (linkingGroupCallback s args).isPreprocessOnly = s.isPreprocessOnly := by
  constructor <;> rfl

theorem compileUnaryCallback_flags (s : FilterState) (flag : Tok) :
    (compileUnaryCallback s flag).isAssembleOnly = s.isAssembleOnly ∧
      (compileUnaryCallback s flag).isPreprocessOnly = s.isPreprocessOnly := by
  constructor <;> rfl

/-! ### Lemmas about one loop iteration (`step`) -/

theorem map_tok_map_arg (l : List Tok) : List.map (Ev.tok ∘ Ev.arg) l = l := by
  induction l with
  | nil => rfl
  | cons x xs ih => simp only [List.map_cons, ih]; rfl

/-- Each iteration consumes the popped token plus the trailing tokens
its rule claimed, in order, and consumes at least the popped token. -/
theorem step_conservation {s : FilterState} {cur : Tok} {rest : List Tok}
    {st : StepRes} (h : step s cur rest = some st) :
    st.consumed.map Ev.tok ++ st.rest = cur :: rest ∧ 1 ≤ st.consumed.length := by
  cases hE : argExactMatches cur with
  | some p =>
    obtain ⟨arity, cb⟩ := p
    simp only [step, hE] at h
    cases hS : shiftArgs arity rest with
    | none => rw [hS] at h; simp at h
    | some p2 =>
      obtain ⟨fa, rest'⟩ := p2
      rw [hS] at h
      simp only [Option.some.injEq] at h
      subst h
      have := (shiftArgs_spec hS).1
      simp [Ev.tok, map_tok_map_arg, this]
  | none =>
    by_cases hC : cur = t "-Wl,--start-group"
    · simp only [step, hE, if_pos hC] at h
      cases hG : collectGroup rest with
      | mk grp p2 =>
        obtain ⟨b, rest'⟩ := p2
        rw [hG] at h
        simp only [Option.some.injEq] at h
        subst h
        have := collectGroup_spec hG
        simp [Ev.tok, map_tok_map_arg, this]
    · simp only [step, hE, if_neg hC] at h
      cases hP : findPattern cur with
      | some p =>
        obtain ⟨arity, cb⟩ := p
        simp only [hP] at h
        cases hS : shiftArgs arity rest with
        | none => rw [hS] at h; simp at h
        | some p2 =>
          obtain ⟨fa, rest'⟩ := p2
          rw [hS] at h
          simp only [Option.some.injEq] at h
          subst h
          have := (shiftArgs_spec hS).1
          simp [Ev.tok, map_tok_map_arg, this]
      | none =>
        simp only [hP, Option.some.injEq] at h
        subst h
        simp [Ev.tok]

theorem step_rest_le {s : FilterState} {cur : Tok} {rest : List Tok}
    {st : StepRes} (h : step s cur rest = some st) :
    st.rest.length ≤ rest.length := by
  obtain ⟨h1, h2⟩ := step_conservation h
  have := congrArg List.length h1
  simp only [List.length_append, List.length_map, List.length_cons] at this
  omega

/-- Appending extra tokens to the queue does not change an iteration
that completed within the original queue; the only exception is an
unterminated linker group, which swallows the whole queue and leaves
the terminal flags untouched. -/
theorem step_append {s : FilterState} {cur : Tok} {rest : List Tok}
    {st : StepRes} (q2 : List Tok) (h : step s cur rest = some st) :
    step s cur (rest ++ q2) = some ⟨st.next, st.consumed, st.rest ++ q2⟩ ∨
      (st.rest = [] ∧ st.next.isAssembleOnly = s.isAssembleOnly ∧
        st.next.isPreprocessOnly = s.isPreprocessOnly) := by
  cases hE : argExactMatches cur with
  | some p =>
    obtain ⟨arity, cb⟩ := p
    simp only [step, hE] at h ⊢
    cases hS : shiftArgs arity rest with
    | none => rw [hS] at h; simp at h
    | some p2 =>
      obtain ⟨fa, rest'⟩ := p2
      rw [hS] at h
      simp only [Option.some.injEq] at h
      subst h
      rw [shiftArgs_append hS]
      left; rfl
  | none =>
    by_cases hC : cur = t "-Wl,--start-group"
    · simp only [step, hE, if_pos hC] at h ⊢
      cases hG : collectGroup rest with
      | mk grp p2 =>
        obtain ⟨b, rest'⟩ := p2
        rw [hG] at h
        simp only [Option.some.injEq] at h
        subst h
        cases b with
        | true =>
          rw [collectGroup_append_term q2 hG]
          left; rfl
        | false =>
          obtain ⟨rfl, rfl⟩ := collectGroup_unterminated hG
          right
          exact ⟨rfl, rfl, rfl⟩
    · simp only [step, hE, if_neg hC] at h ⊢
      cases hP : findPattern cur with
      | some p =>
        obtain ⟨arity, cb⟩ := p
        simp only [hP] at h ⊢
        cases hS : shiftArgs arity rest with
        | none => rw [hS] at h; simp at h
        | some p2 =>
          obtain ⟨fa, rest'⟩ := p2
          rw [hS] at h
          simp only [Option.some.injEq] at h
          subst h
          rw [shiftArgs_append hS]
          left; rfl
      | none =>
        simp only [hP, Option.some.injEq] at h ⊢
        subst h
        left; rfl

/-! ### Core lemmas about the parsing loop -/

/-- On an empty queue the loop returns immediately. -/
theorem runFuel_nil {fuel : Nat} (s : FilterState) (h : 1 ≤ fuel) :
    runFuel fuel s [] = some (s, [], []) := by
  cases fuel with
  | zero => omega
  | succ fuel => simp only [runFuel]; split <;> rfl

/-- Any two sufficient fuel amounts give the same result. -/
theorem runFuel_congr : ∀ {fuel fuel' : Nat} {s : FilterState} {q : List Tok},
    q.length < fuel → q.length < fuel' → runFuel fuel s q = runFuel fuel' s q := by
  intro fuel
  induction fuel with
  | zero => intro fuel' s q h; omega
  | succ fuel ih =>
    intro fuel' s q h h'
    obtain ⟨k, rfl⟩ : ∃ k, fuel' = k + 1 := ⟨fuel' - 1, by omega⟩
    simp only [runFuel]
    by_cases hterm : (s.isAssembleOnly || s.isPreprocessOnly) = true
    · rw [if_pos hterm, if_pos hterm]
    · rw [if_neg hterm, if_neg hterm]
      cases q with
      | nil => rfl
      | cons cur rest =>
        cases hst : step s cur rest with
        | none => simp only [hst]
        | some st =>
          have hr : st.rest.length < fuel := by
            have := step_rest_le hst
            simp only [List.length_cons] at h
            omega
          have hr' : st.rest.length < k := by
            have := step_rest_le hst
            simp only [List.length_cons] at h'
            omega
          simp only [hst]
          rw [ih hr hr']

/-- More fuel never changes a completed run. -/
theorem runFuel_mono : ∀ {fuel fuel' : Nat} {s : FilterState} {q : List Tok}
    {r : FilterState × List Ev × List Tok},
    runFuel fuel s q = some r → fuel ≤ fuel' → runFuel fuel' s q = some r := by
  intro fuel
  induction fuel with
  | zero => intro fuel' s q r h; simp [runFuel] at h
  | succ fuel ih =>
    intro fuel' s q r h hle
    obtain ⟨k, rfl⟩ : ∃ k, fuel' = k + 1 := ⟨fuel' - 1, by omega⟩
    simp only [runFuel] at h ⊢
    by_cases hterm : (s.isAssembleOnly || s.isPreprocessOnly) = true
    · rw [if_pos hterm] at h ⊢; exact h
    · rw [if_neg hterm] at h ⊢
      cases q with
      | nil => exact h
      | cons cur rest =>
        cases hst : step s cur rest with
        | none => simp [hst] at h
        | some st =>
          simp only [hst] at h ⊢
          cases hrun : runFuel fuel st.next st.rest with
          | none => simp [hrun] at h
          | some r' =>
            simp only [hrun] at h
            rw [ih hrun (by omega)]
            exact h

/-- Token conservation: the trace consumes an initial segment of the
queue, each token exactly once and in order, and tokens are left over
only when a terminal flag stopped the loop. -/
theorem runFuel_trace : ∀ {fuel : Nat} {s : FilterState} {q : List Tok}
    {s' : FilterState} {evs : List Ev} {left : List Tok},
    runFuel fuel s q = some (s', evs, left) →
    evs.map Ev.tok ++ left = q ∧
      (left ≠ [] → (s'.isAssembleOnly || s'.isPreprocessOnly) = true) := by
  intro fuel
  induction fuel with
  | zero => intro s q s' evs left h; simp [runFuel] at h
  | succ fuel ih =>
    intro s q s' evs left h
    simp only [runFuel] at h
    by_cases hterm : (s.isAssembleOnly || s.isPreprocessOnly) = true
    · rw [if_pos hterm] at h
      simp only [Option.some.injEq, Prod.mk.injEq] at h
      obtain ⟨rfl, rfl, rfl⟩ := h
      exact ⟨rfl, fun _ => hterm⟩
    · rw [if_neg hterm] at h
      cases q with
      | nil =>
        simp only [Option.some.injEq, Prod.mk.injEq] at h
        obtain ⟨rfl, rfl, rfl⟩ := h
        simp
      | cons cur rest =>
        cases hst : step s cur rest with
        | none => simp [hst] at h
        | some st =>
          simp only [hst] at h
          cases hrun : runFuel fuel st.next st.rest with
          | none => simp [hrun] at h
          | some r' =>
            obtain ⟨s1, evs1, left1⟩ := r'
            simp only [hrun, Option.some.injEq, Prod.mk.injEq] at h
            obtain ⟨rfl, rfl, rfl⟩ := h
            obtain ⟨ih1, ih2⟩ := ih hrun
            refine ⟨?_, ih2⟩
            rw [List.map_append, List.append_assoc, ih1,
              (step_conservation hst).1]

/-- Once the loop has stopped on a terminal flag, any extension of the
input list is left untouched in the queue: the same state and trace
result, with the extra tokens appended to the leftover. -/
theorem runFuel_extend : ∀ {fuel : Nat} {s : FilterState} {q1 : List Tok}
    (q2 : List Tok) {s1 : FilterState} {e1 : List Ev} {rem : List Tok},
    runFuel fuel s q1 = some (s1, e1, rem) →
    (s1.isAssembleOnly || s1.isPreprocessOnly) = true →
    runFuel fuel s (q1 ++ q2) = some (s1, e1, rem ++ q2) := by
  intro fuel
  induction fuel with
  | zero => intro s q1 q2 s1 e1 rem h; simp [runFuel] at h
  | succ fuel ih =>
    intro s q1 q2 s1 e1 rem h hT
    simp only [runFuel] at h ⊢
    by_cases hterm : (s.isAssembleOnly || s.isPreprocessOnly) = true
    · rw [if_pos hterm] at h ⊢
      simp only [Option.some.injEq, Prod.mk.injEq] at h
      obtain ⟨rfl, rfl, rfl⟩ := h
      rfl
    · rw [if_neg hterm] at h ⊢
      cases q1 with
      | nil =>
        simp only [Option.some.injEq, Prod.mk.injEq] at h
        obtain ⟨rfl, rfl, rfl⟩ := h
        exact absurd hT hterm
      | cons cur rest =>
        simp only [List.cons_append]
        cases hst : step s cur rest with
        | none => simp [hst] at h
        | some st =>
          simp only [hst] at h
          cases hrun : runFuel fuel st.next st.rest with
          | none => simp [hrun] at h
          | some r' =>
            obtain ⟨s1', evs1, left1⟩ := r'
            simp only [hrun, Option.some.injEq, Prod.mk.injEq] at h
            obtain ⟨rfl, rfl, rfl⟩ := h
            cases step_append q2 hst with
            | inl hst2 =>
              simp only [hst2, ih q2 hrun hT]
            | inr hflags =>
              obtain ⟨hrest, hA, hP⟩ := hflags
              rw [hrest] at hrun
              cases fuel with
              | zero => simp [runFuel] at hrun
              | succ k =>
                rw [runFuel_nil st.next (by omega)] at hrun
                simp only [Option.some.injEq, Prod.mk.injEq] at hrun
                obtain ⟨rfl, _, _⟩ := hrun
                rw [hA, hP] at hT
                exact absurd hT hterm

/-- A fully unmatched token takes the unrecognized-flag default:
append it to `compileArgs` and continue. -/
theorem step_unmatched {tok : Tok} (hu : unmatched tok = true)
    (s : FilterState) (rest : List Tok) :
    step s tok rest = some ⟨compileUnaryCallback s tok, [Ev.deflt tok], rest⟩ := by
  simp only [unmatched, Bool.and_eq_true, Option.isNone_iff_eq_none,
    decide_eq_true_eq] at hu
  obtain ⟨⟨h1, h2⟩, h3⟩ := hu
  simp [step, h1, h2, h3]

/-- Each iteration either leaves `compileArgs` alone or appends the
popped token via the unrecognized-flag default. -/
theorem step_compileArgs {s : FilterState} {cur : Tok} {rest : List Tok}
    {st : StepRes} (h : step s cur rest = some st) :
    st.next.compileArgs = s.compileArgs ∨
      (st.next.compileArgs = s.compileArgs ++ [cur] ∧ unmatched cur = true) := by
  cases hE : argExactMatches cur with
  | some p =>
    obtain ⟨arity, cb⟩ := p
    simp only [step, hE] at h
    cases hS : shiftArgs arity rest with
    | none => rw [hS] at h; simp at h
    | some p2 =>
      obtain ⟨fa, rest'⟩ := p2
      rw [hS] at h
      simp only [Option.some.injEq] at h
      subst h
      left
      exact applyCallback_compileArgs cb s cur fa
  | none =>
    by_cases hC : cur = t "-Wl,--start-group"
    · simp only [step, hE, if_pos hC] at h
      cases hG : collectGroup rest with
      | mk grp p2 =>
        obtain ⟨b, rest'⟩ := p2
        rw [hG] at h
        simp only [Option.some.injEq] at h
        subst h
        left; rfl
    · simp only [step, hE, if_neg hC] at h
      cases hP : findPattern cur with
      | some p =>
        obtain ⟨arity, cb⟩ := p
        simp only [hP] at h
        cases hS : shiftArgs arity rest with
        | none => rw [hS] at h; simp at h
        | some p2 =>
          obtain ⟨fa, rest'⟩ := p2
          rw [hS] at h
          simp only [Option.some.injEq] at h
          subst h
          left
          exact applyCallback_compileArgs cb s cur fa
      | none =>
        simp only [hP, Option.some.injEq] at h
        subst h
        right
        refine ⟨rfl, ?_⟩
        simp [unmatched, hE, hC, hP]

/-- Every token in the final `compileArgs` was already there at the
start of the run or is fully unmatched by the default tables. -/
theorem runFuel_compile_inv : ∀ {fuel : Nat} {s : FilterState} {q : List Tok}
    {s' : FilterState} {evs : List Ev} {left : List Tok},
    runFuel fuel s q = some (s', evs, left) →
    ∀ tok ∈ s'.compileArgs, tok ∈ s.compileArgs ∨ unmatched tok = true := by
  intro fuel
  induction fuel with
  | zero => intro s q s' evs left h; simp [runFuel] at h
  | succ fuel ih =>
    intro s q s' evs left h
    simp only [runFuel] at h
    by_cases hterm : (s.isAssembleOnly || s.isPreprocessOnly) = true
    · rw [if_pos hterm] at h
      simp only [Option.some.injEq, Prod.mk.injEq] at h
      obtain ⟨rfl, _, _⟩ := h
      intro tok htok
      exact Or.inl htok
    · rw [if_neg hterm] at h
      cases q with
      | nil =>
        simp only [Option.some.injEq, Prod.mk.injEq] at h
        obtain ⟨rfl, _, _⟩ := h
        intro tok htok
        exact Or.inl htok
      | cons cur rest =>
        cases hst : step s cur rest with
        | none => simp [hst] at h
        | some st =>
          simp only [hst] at h
          cases hrun : runFuel fuel st.next st.rest with
          | none => simp [hrun] at h
          | some r' =>
            obtain ⟨s1, evs1, left1⟩ := r'
            simp only [hrun, Option.some.injEq, Prod.mk.injEq] at h
            obtain ⟨rfl, _, _⟩ := h
            intro tok htok
            cases ih hrun tok htok with
            | inr hu => exact Or.inr hu
            | inl hmem =>
              cases step_compileArgs hst with
              | inl heq => exact Or.inl (heq ▸ hmem)
              | inr heq =>
                obtain ⟨heq, hu⟩ := heq
                rw [heq] at hmem
                cases List.mem_append.mp hmem with
                | inl hmem2 => exact Or.inl hmem2
                | inr hmem2 =>
                  cases List.mem_singleton.mp hmem2
                  exact Or.inr hu

/-- A queue of fully unmatched tokens all lands in `compileArgs`, in
order, with nothing else recorded. -/
theorem runFuel_unmatched : ∀ {l : List Tok} {fuel : Nat} {s : FilterState},
    (s.isAssembleOnly || s.isPreprocessOnly) = false →
    (∀ tok ∈ l, unmatched tok = true) → l.length < fuel →
    runFuel fuel s l =
      some ({ s with compileArgs := s.compileArgs ++ l }, l.map Ev.deflt, []) := by
  intro l
  induction l with
  | nil =>
    intro fuel s hterm _ hlen
    rw [runFuel_nil s (by omega)]
    simp
  | cons x xs ih =>
    intro fuel s hterm hall hlen
    obtain ⟨k, rfl⟩ : ∃ k, fuel = k + 1 := ⟨fuel - 1, by omega⟩
    obtain ⟨hx, hxs⟩ := List.forall_mem_cons.mp hall
    have hterm' : ¬((s.isAssembleOnly || s.isPreprocessOnly) = true) := by
      simp [hterm]
    have hterm2 : ((compileUnaryCallback s x).isAssembleOnly ||
        (compileUnaryCallback s x).isPreprocessOnly) = false := hterm
    have hlen2 : xs.length < k := by
      simp only [List.length_cons] at hlen; omega
    simp only [runFuel, if_neg hterm', step_unmatched hx s xs,
      ih hterm2 hxs hlen2]
    simp [compileUnaryCallback]

/-! ### Claim C1 -/

/-- C1 (counterexample): the claim says every token of every input
list lands in exactly one classified position, with none dropped.  On
`["-E", "x"]` the terminal `-E` stops the loop, so `"x"` is dropped:
the classified tokens are exactly `["-E"]` and `"x"` appears in no
matched-flag, consumed-argument, or default-bucket position. -/
theorem C1_counterexample :
    (classify [t "-E", t "x"]).map (fun r => r.2.1.map Ev.tok) = some [t "-E"] ∧
      t "x" ∉ [t "-E"] := by decide

/-- C1 (amended): every token the classification loop consumes
appears in exactly one position, in input order — the trace tokens
followed by the unconsumed remainder reconstitute the input exactly —
and a nonempty remainder can exist only because a terminal flag
(`-E`/`-S`) stopped the loop. -/
theorem C1_token_conservation {l : List Tok} {s : FilterState}
    {evs : List Ev} {left : List Tok}
    (h : classify l = some (s, evs, left)) :
    evs.map Ev.tok ++ left = l ∧
      (left ≠ [] → (s.isAssembleOnly || s.isPreprocessOnly) = true) :=
  runFuel_trace h

/-- C1 witness: the amended claim at the concrete input `["-E", "x"]`. -/
theorem C1_witness :
    [Ev.flag (t "-E")].map Ev.tok ++ [t "x"] = [t "-E", t "x"] ∧
      ([t "x"] ≠ [] →
        (({ initialState with isPreprocessOnly := true }).isAssembleOnly ||
          ({ initialState with isPreprocessOnly := true }).isPreprocessOnly) = true) :=
  C1_token_conservation (by decide)

/-! ### Claim C2 -/

/-- C2: once the preprocess-only flag (set by `-E`) or the
assemble-only flag (set by `-S`) becomes true, classification halts
immediately: whatever tokens follow, the loop returns the very same
state and trace, and every later token is left unclassified in the
queue — none is ever added to any accumulator. -/
theorem C2_terminal_halts {l1 l2 : List Tok} {s : FilterState} {evs : List Ev}
    (h : classify l1 = some (s, evs, []))
    (hT : (s.isPreprocessOnly || s.isAssembleOnly) = true) :
    classify (l1 ++ l2) = some (s, evs, l2) := by
  have hT' : (s.isAssembleOnly || s.isPreprocessOnly) = true := by
    cases hP : s.isPreprocessOnly <;> cases hA : s.isAssembleOnly <;>
      simp_all
  have h1 := runFuel_extend l2 h hT'
  have h2 : runFuel ((l1 ++ l2).length + 1) initialState (l1 ++ l2) =
      some (s, evs, [] ++ l2) :=
    runFuel_mono h1 (by simp only [List.length_append]; omega)
  rw [List.nil_append] at h2
  exact h2

/-- C2 witness: `["-E"]` halts with the preprocess-only flag set, and
appending `["x"]` leaves `"x"` unclassified with the same state. -/
theorem C2_witness :
    classify ([t "-E"] ++ [t "x"]) =
      some ({ initialState with isPreprocessOnly := true },
        [Ev.flag (t "-E")], [t "x"]) :=
  C2_terminal_halts (by decide) (by decide)

/-! ### Claim C3 -/

/-- C3: when the loop, in a non-terminal state, matches a flag whose
table entry declares arity `N` but fewer than `N` tokens remain,
`_shiftArgs` raises (models the IndexError of `popleft` on an empty
deque) and the whole classification run fails: the error propagates
and the underflow is never silently ignored.  With the default tables
the only positive-arity flag is `-o` (arity 1); the pattern rules all
have arity 0, so the exact table is the only source of underflow. -/
theorem C3_arity_underflow (s : FilterState) (cur : Tok) (arity : Nat)
    (cb : Callback) (rest : List Tok)
    (hterm : (s.isAssembleOnly || s.isPreprocessOnly) = false)
    (hE : argExactMatches cur = some (arity, cb))
    (hlt : rest.length < arity) :
    run s (cur :: rest) = none := by
  have hS : shiftArgs arity rest = none := shiftArgs_none_of_lt hlt
  have hstep : step s cur rest = none := by simp [step, hE, hS]
  have hterm' : ¬((s.isAssembleOnly || s.isPreprocessOnly) = true) := by
    simp [hterm]
  simp only [run, runFuel, if_neg hterm', hstep]

/-- C3 witness: classifying `["-o"]` from the initial state fails. -/
theorem C3_witness : run initialState [t "-o"] = none :=
  C3_arity_underflow initialState (t "-o") 1 Callback.outputFile []
    (by decide) (by decide) (by decide)

/-! ### Claim C8 -/

/-- C8: classification with the default rule tables is idempotent on
compile arguments: re-classifying the `compileArgs` accumulator of any
successful run reproduces exactly the same compile-argument list, with
every other accumulator empty and every flag still clear — no token
moves to any other category. -/
theorem C8_compileArgs_idempotent {l : List Tok} {s : FilterState}
    {evs : List Ev} {left : List Tok}
    (h : classify l = some (s, evs, left)) :
    classify s.compileArgs =
      some ({ initialState with compileArgs := s.compileArgs },
        s.compileArgs.map Ev.deflt, []) := by
  have hall : ∀ tok ∈ s.compileArgs, unmatched tok = true := by
    intro tok htok
    cases runFuel_compile_inv h tok htok with
    | inl hmem => exact absurd hmem (List.not_mem_nil tok)
    | inr hu => exact hu
  have := runFuel_unmatched (s := initialState) rfl hall
    (Nat.lt_succ_self s.compileArgs.length)
  simpa using this

/-- C8 witness: `["-fno-builtin"]` is unmatched, lands in
`compileArgs`, and re-classifying that list reproduces it. -/
theorem C8_witness :
    classify [t "-fno-builtin"] =
      some ({ initialState with compileArgs := [t "-fno-builtin"] },
        [Ev.deflt (t "-fno-builtin")], []) := by
  have h : classify [t "-fno-builtin"] =
      some ({ initialState with compileArgs := [t "-fno-builtin"] },
        [Ev.deflt (t "-fno-builtin")], []) := by decide
  exact C8_compileArgs_idempotent h

/-! ### Claim C10 -/

/-- C10: `getOutputFilename` is partial at the public interface: the
single-token inputs `["-v"]` and `["--version"]` finish classification
with the compile-only flag set, no explicit output path, and no input
files, and in that state the query hits `self.inputFiles[0]` on an
empty list — the out-of-range indexing error modelled by `none` —
instead of returning a name. -/
theorem C10_getOutputFilename_out_of_range :
    (classify [t "-v"]).map (fun r =>
        (r.1.isCompileOnly, r.1.outputFilename, r.1.inputFiles,
          getOutputFilename r.1)) =
      some (true, none, [], none) ∧
    (classify [t "--version"]).map (fun r =>
        (r.1.isCompileOnly, r.1.outputFilename, r.1.inputFiles,
          getOutputFilename r.1)) =
      some (true, none, [], none) :=
  ⟨by decide, by decide⟩

/-! ### Claim C5 -/

/-- The one-step unfolding equation of `runFuel` at a successor fuel. -/
theorem runFuel_succ (fuel : Nat) (s : FilterState) (q : List Tok) :
    runFuel (fuel + 1) s q =
      if s.isAssembleOnly || s.isPreprocessOnly then some (s, [], q)
      else
        match q with
        | [] => some (s, [], [])
        | cur :: rest =>
          match step s cur rest with
          | none => none
          | some st =>
            match runFuel fuel st.next st.rest with
            | none => none
            | some (s', evs, left) => some (s', st.consumed ++ evs, left) := rfl

/-- Unfolding one iteration of the loop at the `run` level. -/
theorem run_cons (s : FilterState) (cur : Tok) (rest : List Tok)
    (hterm : (s.isAssembleOnly || s.isPreprocessOnly) = false) :
    run s (cur :: rest) =
      match step s cur rest with
      | none => none
      | some st =>
        (run st.next st.rest).map (fun r => (r.1, st.consumed ++ r.2.1, r.2.2)) := by
  have hterm' : ¬((s.isAssembleOnly || s.isPreprocessOnly) = true) := by
    simp [hterm]
  simp only [run, List.length_cons]
  rw [runFuel_succ, if_neg hterm']
  cases hst : step s cur rest with
  | none => simp only [hst]
  | some st =>
    simp only [hst]
    have hc : runFuel (rest.length + 1) st.next st.rest =
        runFuel (st.rest.length + 1) st.next st.rest :=
      runFuel_congr (Nat.lt_succ_of_le (step_rest_le hst)) (Nat.lt_succ_self _)
    rw [hc]
    cases hrun : runFuel (st.rest.length + 1) st.next st.rest with
    | none => simp [run, hrun]
    | some r => simp [run, hrun]

/-- C5 (counterexample): the claim quantifies over every input list
containing a bracketed group, but on
`["-E", "-Wl,--start-group", "-Wl,--end-group"]` the terminal `-E`
halts classification first and the complete group that follows is
never appended: `linkArgs` stays empty. -/
theorem C5_counterexample :
    (classify [t "-E", t "-Wl,--start-group", t "-Wl,--end-group"]).map
      (fun r => r.1.linkArgs) = some [] := by decide

/-- C5 (amended): whenever the loop, in a non-terminal state, pops the
`-Wl,--start-group` marker off the head of the queue, the bracketed
group is appended to `linkArgs` as one contiguous block in original
order, markers included: a group closed by `-Wl,--end-group` is
flushed whole (with the loop continuing after the closing marker), and
if the queue is exhausted before the closing marker this is non-fatal
and the partial group is still flushed as captured, the run ending
normally. -/
theorem C5_linker_group (s : FilterState) (g rest : List Tok)
    (hterm : (s.isAssembleOnly || s.isPreprocessOnly) = false)
    (hg : t "-Wl,--end-group" ∉ g) :
    run s (t "-Wl,--start-group" :: (g ++ t "-Wl,--end-group" :: rest)) =
      (run { s with linkArgs := s.linkArgs ++
          (t "-Wl,--start-group" :: (g ++ [t "-Wl,--end-group"])) } rest).map
        (fun r => (r.1, Ev.flag (t "-Wl,--start-group") ::
          (g ++ [t "-Wl,--end-group"]).map Ev.arg ++ r.2.1, r.2.2)) ∧
    run s (t "-Wl,--start-group" :: g) =
      some ({ s with linkArgs := s.linkArgs ++ (t "-Wl,--start-group" :: g) },
        Ev.flag (t "-Wl,--start-group") :: g.map Ev.arg, []) := by
  have hE : argExactMatches (t "-Wl,--start-group") = none := by decide
  constructor
  · have hstep : step s (t "-Wl,--start-group") (g ++ t "-Wl,--end-group" :: rest) =
        some ⟨linkingGroupCallback s
            (t "-Wl,--start-group" :: (g ++ [t "-Wl,--end-group"])),
          Ev.flag (t "-Wl,--start-group") ::
            (g ++ [t "-Wl,--end-group"]).map Ev.arg, rest⟩ := by
      simp [step, hE, collectGroup_closed rest hg]
    rw [run_cons s _ _ hterm, hstep]
    simp [linkingGroupCallback]
  · have hstep2 : step s (t "-Wl,--start-group") g =
        some ⟨linkingGroupCallback s (t "-Wl,--start-group" :: g),
          Ev.flag (t "-Wl,--start-group") :: g.map Ev.arg, []⟩ := by
      simp [step, hE, collectGroup_no_end hg]
    rw [run_cons s _ _ hterm, hstep2]
    have hnil : run (linkingGroupCallback s (t "-Wl,--start-group" :: g)) [] =
        some (linkingGroupCallback s (t "-Wl,--start-group" :: g), [], []) :=
      runFuel_nil _ (by omega)
    simp only [hnil, Option.map_some']
    simp [linkingGroupCallback]

/-- C5 witness: the amended claim at the concrete group
`["-Wl,--start-group", "-la", "-lb", "-Wl,--end-group"]` (closed case)
and at the exhausted queue `["-Wl,--start-group", "-la", "-lb"]`. -/
theorem C5_witness :
    run initialState
        (t "-Wl,--start-group" :: ([t "-la", t "-lb"] ++ t "-Wl,--end-group" :: [])) =
      (run { initialState with linkArgs := initialState.linkArgs ++
          (t "-Wl,--start-group" :: ([t "-la", t "-lb"] ++ [t "-Wl,--end-group"])) } []).map
        (fun r => (r.1, Ev.flag (t "-Wl,--start-group") ::
          ([t "-la", t "-lb"] ++ [t "-Wl,--end-group"]).map Ev.arg ++ r.2.1, r.2.2)) ∧
    run initialState (t "-Wl,--start-group" :: [t "-la", t "-lb"]) =
      some ({ initialState with linkArgs := initialState.linkArgs ++
          (t "-Wl,--start-group" :: [t "-la", t "-lb"]) },
        Ev.flag (t "-Wl,--start-group") :: [t "-la", t "-lb"].map Ev.arg, []) :=
  C5_linker_group initialState [t "-la", t "-lb"] [] (by decide) (by decide)

/-! ### Lemmas about the pattern matchers -/

theorem takeWhile_all_append (p : Char → Bool) {xs : List Char} {y : Char}
    (ys : List Char) (h : ∀ x ∈ xs, p x = true) (hy : p y = false) :
    (xs ++ y :: ys).takeWhile p = xs := by
  induction xs with
  | nil => simp [List.takeWhile_cons, hy]
  | cons x xs ih =>
    have hx : p x = true := h x (List.mem_cons_self x xs)
    have h' : ∀ z ∈ xs, p z = true := fun z hz => h z (List.mem_cons_of_mem _ hz)
    simp [List.takeWhile_cons, hx, ih h']

theorem dropWhile_all_append (p : Char → Bool) {xs : List Char} {y : Char}
    (ys : List Char) (h : ∀ x ∈ xs, p x = true) (hy : p y = false) :
    (xs ++ y :: ys).dropWhile p = y :: ys := by
  induction xs with
  | nil => simp [List.dropWhile_cons, hy]
  | cons x xs ih =>
    have hx : p x = true := h x (List.mem_cons_self x xs)
    have h' : ∀ z ∈ xs, p z = true := fun z hz => h z (List.mem_cons_of_mem _ hz)
    simp [List.dropWhile_cons, hx, ih h']

/-- Computing `splitLastDot` on a token whose final extension `e` is dot-free
splits exactly before that extension. -/
theorem splitLastDot_closed {a e : Tok} (he : '.' ∉ e) :
    splitLastDot (a ++ '.' :: e) = some (a, e) := by
  have hrev : (a ++ '.' :: e).reverse = e.reverse ++ '.' :: a.reverse := by
    simp
  have hall : ∀ c ∈ e.reverse, (fun c => decide (c ≠ '.')) c = true := by
    intro c hc
    simp only [decide_eq_true_eq]
    intro hceq
    exact he (hceq ▸ List.mem_reverse.mp hc)
  have hy : (fun c => decide (c ≠ '.')) '.' = false := by simp
  simp only [splitLastDot, hrev]
  rw [takeWhile_all_append _ _ hall hy, dropWhile_all_append _ _ hall hy]
  simp

theorem splitLastDot_none {tok : Tok} (h : '.' ∉ tok) :
    splitLastDot tok = none := by
  have hd : tok.reverse.dropWhile (fun c => decide (c ≠ '.')) = [] := by
    rw [List.dropWhile_eq_nil_iff]
    intro x hx
    simp only [decide_eq_true_eq]
    intro hxeq
    exact h (hxeq ▸ List.mem_reverse.mp hx)
  simp only [splitLastDot, hd]

theorem lookup_eq_none_of_ne {β : Type} : ∀ {l : List (Tok × β)} {tok : Tok},
    (∀ p ∈ l, tok ≠ p.1) → l.lookup tok = none := by
  intro l
  induction l with
  | nil => intro tok h; rfl
  | cons kv es ih =>
    intro tok h
    have h1 : tok ≠ kv.1 := h kv (List.mem_cons_self kv es)
    have h2 : ∀ p ∈ es, tok ≠ p.1 := fun p hp => h p (List.mem_cons_of_mem _ hp)
    obtain ⟨k, v⟩ := kv
    simp only [List.lookup, beq_false_of_ne h1]
    exact ih h2

/-- No key of the exact-match table contains a dot, so a dotted token
always misses the table. -/
theorem argExactMatches_none_of_dot {tok : Tok} (h : '.' ∈ tok) :
    argExactMatches tok = none := by
  apply lookup_eq_none_of_ne
  intro p hp heq
  have hkeys : ∀ p ∈ defaultArgExactMatches, '.' ∉ p.1 := by decide
  exact hkeys p hp (heq ▸ h)

/-- The group marker contains no dot either. -/
theorem ne_startGroup_of_dot {tok : Tok} (h : '.' ∈ tok) :
    tok ≠ t "-Wl,--start-group" := by
  intro heq
  subst heq
  exact absurd h (by decide)

theorem stripNl_eq_self {tok : Tok} (h : tok.getLast? ≠ some '\n') :
    stripNl tok = tok := by
  simp [stripNl, h]

theorem stripDotDigitPairsRev_stop (c1 c2 : Char) (r : Tok) (h : c2 ≠ '.') :
    stripDotDigitPairsRev (c1 :: c2 :: r) = (0, c1 :: c2 :: r) := by
  rw [stripDotDigitPairsRev.eq_def]
  split <;> simp_all

theorem stripDotDigitPairsRev_pair (d : Char) (r : Tok)
    (hd : d.isDigit = true) :
    stripDotDigitPairsRev (d :: '.' :: r) =
      ((stripDotDigitPairsRev r).1 + 1, (stripDotDigitPairsRev r).2) := by
  cases hsr : stripDotDigitPairsRev r with
  | mk n r' => simp [stripDotDigitPairsRev, hd, hsr]

theorem stripDotDigitPairsRev_join (es : List Char) (c1 c2 : Char) (r : Tok)
    (hall : ∀ d ∈ es, d.isDigit = true) (hc2 : c2 ≠ '.') :
    stripDotDigitPairsRev ((es.map (fun d => [d, '.'])).flatten ++ (c1 :: c2 :: r)) =
      (es.length, c1 :: c2 :: r) := by
  induction es with
  | nil => simpa using stripDotDigitPairsRev_stop c1 c2 r hc2
  | cons d es ih =>
    have hd := hall d (List.mem_cons_self d es)
    have h' : ∀ x ∈ es, x.isDigit = true :=
      fun x hx => hall x (List.mem_cons_of_mem _ hx)
    simp only [List.map_cons, List.flatten_cons, List.cons_append, List.append_assoc,
      List.nil_append]
    rw [stripDotDigitPairsRev_pair d _ hd, ih h']
    simp

theorem verTail_reverse (ds : List Char) :
    (verTail ds).reverse = (ds.reverse.map (fun d => [d, '.'])).flatten := by
  induction ds with
  | nil => rfl
  | cons d ds ih =>
    simp only [verTail, List.map_cons, List.flatten_cons, List.reverse_append,
      List.reverse_cons, List.map_append, List.flatten_append] at ih ⊢
    rw [ih]
    simp

theorem verTail_concat (ds : List Char) (d : Char) :
    verTail (ds ++ [d]) = verTail ds ++ ['.', d] := by
  simp [verTail]

theorem verTail_ne_nil {ds : List Char} (h : ds ≠ []) : verTail ds ≠ [] := by
  cases ds with
  | nil => exact absurd rfl h
  | cons d ds => simp [verTail]

/-- A decimal digit is one of the ten ASCII digit characters. -/
theorem digit_mem {c : Char} (h : c.isDigit = true) :
    c ∈ (['0','1','2','3','4','5','6','7','8','9'] : List Char) := by
  simp only [Char.isDigit, Bool.and_eq_true, decide_eq_true_eq] at h
  obtain ⟨h1, h2⟩ := h
  have n1 : 48 ≤ c.val.toNat := by
    simpa [UInt32.le_def, BitVec.le_def] using h1
  have n2 : c.val.toNat ≤ 57 := by
    simpa [UInt32.le_def, BitVec.le_def] using h2
  have hn : c.toNat = 48 ∨ c.toNat = 49 ∨ c.toNat = 50 ∨
      c.toNat = 51 ∨ c.toNat = 52 ∨ c.toNat = 53 ∨
      c.toNat = 54 ∨ c.toNat = 55 ∨ c.toNat = 56 ∨
      c.toNat = 57 := by
    simp only [Char.toNat]
    omega
  have key : ∀ (d : Char) (n : Nat), c.toNat = n → d.toNat = n → c = d := by
    intro d n hc hd
    apply Char.ext
    apply UInt32.toNat.inj
    simp only [Char.toNat] at hc hd
    rw [hc, hd]
  rcases hn with h | h | h | h | h | h | h | h | h | h
  · rw [key '0' 48 h (by decide)]; decide
  · rw [key '1' 49 h (by decide)]; decide
  · rw [key '2' 50 h (by decide)]; decide
  · rw [key '3' 51 h (by decide)]; decide
  · rw [key '4' 52 h (by decide)]; decide
  · rw [key '5' 53 h (by decide)]; decide
  · rw [key '6' 54 h (by decide)]; decide
  · rw [key '7' 55 h (by decide)]; decide
  · rw [key '8' 56 h (by decide)]; decide
  · rw [key '9' 57 h (by decide)]; decide

/-- A digit differs from any non-digit character. -/
theorem digit_ne {c x : Char} (h : c.isDigit = true) (hx : x.isDigit = false) :
    c ≠ x := by
  intro heq
  rw [heq, hx] at h
  exact Bool.false_ne_true h

theorem contains_nl_false {a : Tok} (hnl : '\n' ∉ a) :
    a.contains '\n' = false := by
  simpa using hnl

theorem singleton_digit_not_src {d : Char} (hd : d.isDigit = true) :
    ¬([d] ∈ srcExts) := by
  have hm := digit_mem hd
  fin_cases hm <;> decide

theorem singleton_digit_not_fortran {d : Char} (hd : d.isDigit = true) :
    fortranExt [d] = false := by
  have hm := digit_mem hd
  fin_cases hm <;> decide

theorem singleton_digit_not_obj {d : Char} (hd : d.isDigit = true) :
    ¬([d] ∈ objExts) := by
  have hm := digit_mem hd
  fin_cases hm <;> decide

/-- A zero-arity rule found in the pattern table: the iteration
applies its callback to the popped token and continues. -/
theorem run_cons_pattern0 (s : FilterState) (tok : Tok) (rest : List Tok)
    (cb : Callback)
    (hterm : (s.isAssembleOnly || s.isPreprocessOnly) = false)
    (hE : argExactMatches tok = none)
    (hC : tok ≠ t "-Wl,--start-group")
    (hP : findPattern tok = some (0, cb)) :
    run s (tok :: rest) =
      (run (applyCallback cb s tok []) rest).map
        (fun r => (r.1, Ev.flag tok :: r.2.1, r.2.2)) := by
  have hstep : step s tok rest =
      some ⟨applyCallback cb s tok [], [Ev.flag tok], rest⟩ := by
    simp [step, hE, hC, hP, shiftArgs]
  rw [run_cons s _ _ hterm, hstep]
  simp

/-- A zero-arity rule found in the exact table: the iteration applies
its callback to the popped token and continues. -/
theorem run_cons_exact0 (s : FilterState) (tok : Tok) (rest : List Tok)
    (cb : Callback)
    (hterm : (s.isAssembleOnly || s.isPreprocessOnly) = false)
    (hE : argExactMatches tok = some (0, cb)) :
    run s (tok :: rest) =
      (run (applyCallback cb s tok []) rest).map
        (fun r => (r.1, Ev.flag tok :: r.2.1, r.2.2)) := by
  have hstep : step s tok rest =
      some ⟨applyCallback cb s tok [], [Ev.flag tok], rest⟩ := by
    simp [step, hE, shiftArgs]
  rw [run_cons s _ _ hterm, hstep]
  simp

theorem stripDotDigitPairsRev_nondigit (c1 : Char) (r : Tok)
    (h : c1.isDigit = false) :
    stripDotDigitPairsRev (c1 :: r) = (0, c1 :: r) := by
  rw [stripDotDigitPairsRev.eq_def]
  split <;> simp_all

theorem objExt_getLast {e : Tok} (h : e ∈ objExts) :
    ('.' :: e).getLast? ≠ some '\n' := by
  fin_cases h <;> decide

theorem objExt_not_src {e : Tok} (h : e ∈ objExts) : ¬(e ∈ srcExts) := by
  fin_cases h <;> decide

theorem objExt_not_fortran {e : Tok} (h : e ∈ objExts) : fortranExt e = false := by
  fin_cases h <;> decide

theorem objExt_rev_head {e : Tok} (h : e ∈ objExts) :
    ∃ c r, e.reverse = c :: r ∧ c.isDigit = false := by
  fin_cases h
  · exact ⟨'o', [], by decide, by decide⟩
  · exact ⟨'o', ['l'], by decide, by decide⟩
  · exact ⟨'o', ['S'], by decide, by decide⟩
  · exact ⟨'o', ['s'], by decide, by decide⟩
  · exact ⟨'o', ['p'], by decide, by decide⟩
  · exact ⟨'a', [], by decide, by decide⟩
  · exact ⟨'b', ['i', 'l', 'y', 'd'], by decide, by decide⟩

/-- Evaluate `matchVersioned` from a precomputed strip of the
trailing version groups. -/
theorem matchVersioned_eval (bases : List Tok) (tok u : Tok) (n : Nat)
    (rr : Tok) (hu : stripNl tok = u)
    (hstrip : stripDotDigitPairsRev u.reverse = (n, rr)) :
    matchVersioned bases tok =
      (decide (1 ≤ n) &&
        (match splitLastDot rr.reverse with
         | some (a, e) =>
           decide (a ≠ []) && !a.contains '\n' && decide (e ∈ bases)
         | none => false)) := by
  simp only [matchVersioned, hu, hstrip]

/-! ### Claim C7 -/

/-- C7 (counterexample): the claim quantifies over every token of
object/library shape in any position, but in `["-o", "x.o"]` the
token `x.o` is consumed as the argument of `-o`: it becomes the output
file name and is never appended to the pre-built object files. -/
theorem C7_counterexample :
    (classify [t "-o", t "x.o"]).map
      (fun r => (r.1.objectFiles, r.1.outputFilename)) =
      some ([], some (t "x.o")) := by decide

/-- C7 (amended): whenever the loop examines, at the head of the queue
and in a non-terminal state, a newline-free token ending in an
object/library suffix (`.o`, `.lo`, `.So`, `.so`, `.po`, `.a`,
`.dylib`, or a versioned shared-library suffix such as `.so.4.5.6`),
it appends that token to the pre-built object file accumulator — and
to no other: `inputFiles` is untouched — and continues with the rest
of the queue. -/
theorem C7_object_suffix_routed (s : FilterState) (tok : Tok) (rest : List Tok)
    (hterm : (s.isAssembleOnly || s.isPreprocessOnly) = false)
    (hshape : specObjSuffix tok) :
    run s (tok :: rest) =
      (run (objectFileCallback s tok) rest).map
        (fun r => (r.1, Ev.flag tok :: r.2.1, r.2.2)) ∧
    (objectFileCallback s tok).objectFiles = s.objectFiles ++ [tok] ∧
    (objectFileCallback s tok).inputFiles = s.inputFiles := by
  refine ⟨?_, rfl, rfl⟩
  rcases hshape with ⟨a, e, rfl, ha, hnl, hed, hmem⟩ |
    ⟨a, b, ds, rfl, ha, hnl, hds, hdig, hb⟩
  · -- plain object/library extension
    have hdot : '.' ∈ a ++ '.' :: e := by simp
    have hE := argExactMatches_none_of_dot hdot
    have hC := ne_startGroup_of_dot hdot
    have hcon := contains_nl_false hnl
    have hsplit : splitLastDot (a ++ '.' :: e) = some (a, e) :=
      splitLastDot_closed hed
    have hns : stripNl (a ++ '.' :: e) = a ++ '.' :: e :=
      stripNl_eq_self (by rw [List.getLast?_append_cons]; exact objExt_getLast hmem)
    obtain ⟨c, rr, hrev_e, hcdig⟩ := objExt_rev_head hmem
    have hm1 : matchSrcFile (a ++ '.' :: e) = false := by
      simp [matchSrcFile, matchDotExt, hns, hsplit, objExt_not_src hmem]
    have hm2 : matchFortranFile (a ++ '.' :: e) = false := by
      simp [matchFortranFile, hns, hsplit, objExt_not_fortran hmem]
    have hm3 : matchObjFile (a ++ '.' :: e) = true := by
      simp [matchObjFile, matchDotExt, hns, hsplit, ha, hnl, hmem]
    have hrevfull : (a ++ '.' :: e).reverse = c :: (rr ++ '.' :: a.reverse) := by
      have h1 : (a ++ '.' :: e).reverse = e.reverse ++ '.' :: a.reverse := by simp
      rw [h1, hrev_e]
      simp
    have hstripv : stripDotDigitPairsRev ((a ++ '.' :: e).reverse) =
        (0, (a ++ '.' :: e).reverse) := by
      rw [hrevfull]
      exact stripDotDigitPairsRev_nondigit c _ hcdig
    have hm4 : matchDylibVersioned (a ++ '.' :: e) = false := by
      simp only [matchDylibVersioned, matchVersioned_eval _ _ _ _ _ hns hstripv]
      simp
    have hm5 : matchSoVersioned (a ++ '.' :: e) = false := by
      simp only [matchSoVersioned, matchVersioned_eval _ _ _ _ _ hns hstripv]
      simp
    have hP : findPattern (a ++ '.' :: e) = some (0, Callback.objectFile) := by
      simp [findPattern, defaultArgPatterns, hm1, hm2, hm3, hm4, hm5]
    exact run_cons_pattern0 s _ rest Callback.objectFile hterm hE hC hP
  · -- versioned shared-library suffix
    rcases List.eq_nil_or_concat' ds with rfl | ⟨ds', dl, rfl⟩
    · exact absurd rfl hds
    have hdl : dl.isDigit = true := hdig dl (by simp)
    have hdlne : dl ≠ '.' := digit_ne hdl (by decide)
    have hdot : '.' ∈ a ++ '.' :: (b ++ verTail (ds' ++ [dl])) := by simp
    have hE := argExactMatches_none_of_dot hdot
    have hC := ne_startGroup_of_dot hdot
    have hcon := contains_nl_false hnl
    have hvt : verTail (ds' ++ [dl]) = verTail ds' ++ ['.', dl] :=
      verTail_concat ds' dl
    have hlast : (a ++ '.' :: (b ++ verTail (ds' ++ [dl]))).getLast? ≠
        some '\n' := by
      rw [List.getLast?_append_cons,
        show ('.' :: (b ++ verTail (ds' ++ [dl]))) =
          ('.' :: b) ++ verTail (ds' ++ [dl]) from by simp,
        List.getLast?_append_of_ne_nil _ (verTail_ne_nil (by simp)), hvt,
        List.getLast?_append_of_ne_nil _ (by simp : (['.', dl] : Tok) ≠ [])]
      intro heq
      have : dl = '\n' := by
        simpa [List.getLast?] using heq
      exact digit_ne hdl (by decide) this
    have hns := stripNl_eq_self hlast
    have hdotdl : '.' ∉ ([dl] : Tok) := by
      intro hmem2
      simp at hmem2
      exact hdlne hmem2.symm
    have hassoc : a ++ '.' :: (b ++ verTail (ds' ++ [dl])) =
        (a ++ '.' :: (b ++ verTail ds')) ++ '.' :: [dl] := by
      rw [hvt]
      simp
    have hsplit : splitLastDot (a ++ '.' :: (b ++ verTail (ds' ++ [dl]))) =
        some (a ++ '.' :: (b ++ verTail ds'), [dl]) := by
      rw [hassoc]
      exact splitLastDot_closed hdotdl
    have hm1 : matchSrcFile (a ++ '.' :: (b ++ verTail (ds' ++ [dl]))) = false := by
      simp [matchSrcFile, matchDotExt, hns, hsplit, singleton_digit_not_src hdl]
    have hm2 : matchFortranFile (a ++ '.' :: (b ++ verTail (ds' ++ [dl]))) = false := by
      simp [matchFortranFile, hns, hsplit, singleton_digit_not_fortran hdl]
    have hm3 : matchObjFile (a ++ '.' :: (b ++ verTail (ds' ++ [dl]))) = false := by
      simp [matchObjFile, matchDotExt, hns, hsplit, singleton_digit_not_obj hdl]
    have hdigrev : ∀ d ∈ (ds' ++ [dl]).reverse, d.isDigit = true := by
      intro d hd
      exact hdig d (List.mem_reverse.mp hd)
    have hlen : 1 ≤ ((ds' ++ [dl]).reverse.map (fun d => [d, '.'])).flatten.length +
        0 + 1 := by omega
    rcases hb with rfl | rfl | rfl
    · -- b = "So"
      have hrevtok : (a ++ '.' :: (t "So" ++ verTail (ds' ++ [dl]))).reverse =
          ((ds' ++ [dl]).reverse.map (fun d => [d, '.'])).flatten ++
            ('o' :: 'S' :: '.' :: a.reverse) := by
        simp [verTail_reverse, t]
      have hstripv : stripDotDigitPairsRev
          ((a ++ '.' :: (t "So" ++ verTail (ds' ++ [dl]))).reverse) =
          ((ds' ++ [dl]).reverse.length, 'o' :: 'S' :: '.' :: a.reverse) := by
        rw [hrevtok]
        exact stripDotDigitPairsRev_join _ 'o' 'S' _ hdigrev (by decide)
      have hrr : ('o' :: 'S' :: '.' :: a.reverse).reverse = a ++ '.' :: t "So" := by
        simp [t]
      have hsplit2 : splitLastDot (a ++ '.' :: t "So") = some (a, t "So") :=
        splitLastDot_closed (by decide)
      have hlen2 : 1 ≤ (ds' ++ [dl]).reverse.length := by simp
      have hm4 : matchDylibVersioned
          (a ++ '.' :: (t "So" ++ verTail (ds' ++ [dl]))) = false := by
        simp only [matchDylibVersioned, matchVersioned_eval _ _ _ _ _ hns hstripv,
          hrr, hsplit2]
        simp
        intro _ _
        decide
      have hm5 : matchSoVersioned
          (a ++ '.' :: (t "So" ++ verTail (ds' ++ [dl]))) = true := by
        simp only [matchSoVersioned, matchVersioned_eval _ _ _ _ _ hns hstripv,
          hrr, hsplit2]
        simp [ha, hnl, hlen2]
      have hP : findPattern (a ++ '.' :: (t "So" ++ verTail (ds' ++ [dl]))) =
          some (0, Callback.objectFile) := by
        simp [findPattern, defaultArgPatterns, hm1, hm2, hm3, hm4, hm5]
      exact run_cons_pattern0 s _ rest Callback.objectFile hterm hE hC hP
    · -- b = "so"
      have hrevtok : (a ++ '.' :: (t "so" ++ verTail (ds' ++ [dl]))).reverse =
          ((ds' ++ [dl]).reverse.map (fun d => [d, '.'])).flatten ++
            ('o' :: 's' :: '.' :: a.reverse) := by
        simp [verTail_reverse, t]
      have hstripv : stripDotDigitPairsRev
          ((a ++ '.' :: (t "so" ++ verTail (ds' ++ [dl]))).reverse) =
          ((ds' ++ [dl]).reverse.length, 'o' :: 's' :: '.' :: a.reverse) := by
        rw [hrevtok]
        exact stripDotDigitPairsRev_join _ 'o' 's' _ hdigrev (by decide)
      have hrr : ('o' :: 's' :: '.' :: a.reverse).reverse = a ++ '.' :: t "so" := by
        simp [t]
      have hsplit2 : splitLastDot (a ++ '.' :: t "so") = some (a, t "so") :=
        splitLastDot_closed (by decide)
      have hlen2 : 1 ≤ (ds' ++ [dl]).reverse.length := by simp
      have hm4 : matchDylibVersioned
          (a ++ '.' :: (t "so" ++ verTail (ds' ++ [dl]))) = false := by
        simp only [matchDylibVersioned, matchVersioned_eval _ _ _ _ _ hns hstripv,
          hrr, hsplit2]
        simp
        intro _ _
        decide
      have hm5 : matchSoVersioned
          (a ++ '.' :: (t "so" ++ verTail (ds' ++ [dl]))) = true := by
        simp only [matchSoVersioned, matchVersioned_eval _ _ _ _ _ hns hstripv,
          hrr, hsplit2]
        simp [ha, hnl, hlen2]
      have hP : findPattern (a ++ '.' :: (t "so" ++ verTail (ds' ++ [dl]))) =
          some (0, Callback.objectFile) := by
        simp [findPattern, defaultArgPatterns, hm1, hm2, hm3, hm4, hm5]
      exact run_cons_pattern0 s _ rest Callback.objectFile hterm hE hC hP
    · -- b = "dylib"
      have hrevtok : (a ++ '.' :: (t "dylib" ++ verTail (ds' ++ [dl]))).reverse =
          ((ds' ++ [dl]).reverse.map (fun d => [d, '.'])).flatten ++
            ('b' :: 'i' :: 'l' :: 'y' :: 'd' :: '.' :: a.reverse) := by
        simp [verTail_reverse, t]
      have hstripv : stripDotDigitPairsRev
          ((a ++ '.' :: (t "dylib" ++ verTail (ds' ++ [dl]))).reverse) =
          ((ds' ++ [dl]).reverse.length,
            'b' :: 'i' :: 'l' :: 'y' :: 'd' :: '.' :: a.reverse) := by
        rw [hrevtok]
        exact stripDotDigitPairsRev_join _ 'b' 'i' _ hdigrev (by decide)
      have hrr : ('b' :: 'i' :: 'l' :: 'y' :: 'd' :: '.' :: a.reverse).reverse =
          a ++ '.' :: t "dylib" := by
        simp [t]
      have hsplit2 : splitLastDot (a ++ '.' :: t "dylib") = some (a, t "dylib") :=
        splitLastDot_closed (by decide)
      have hlen2 : 1 ≤ (ds' ++ [dl]).reverse.length := by simp
      have hm4 : matchDylibVersioned
          (a ++ '.' :: (t "dylib" ++ verTail (ds' ++ [dl]))) = true := by
        simp only [matchDylibVersioned, matchVersioned_eval _ _ _ _ _ hns hstripv,
          hrr, hsplit2]
        simp [ha, hnl, hlen2]
      have hP : findPattern (a ++ '.' :: (t "dylib" ++ verTail (ds' ++ [dl]))) =
          some (0, Callback.objectFile) := by
        simp [findPattern, defaultArgPatterns, hm1, hm2, hm3, hm4]
      exact run_cons_pattern0 s _ rest Callback.objectFile hterm hE hC hP

/-- C7 witness: the amended claim at the concrete token
`libfoo.so.1.2.3`, which lands in pre-built object files. -/
theorem C7_witness :
    run initialState [t "libfoo.so.1.2.3"] =
      (run (objectFileCallback initialState (t "libfoo.so.1.2.3")) []).map
        (fun r => (r.1, Ev.flag (t "libfoo.so.1.2.3") :: r.2.1, r.2.2)) ∧
    (objectFileCallback initialState (t "libfoo.so.1.2.3")).objectFiles =
      initialState.objectFiles ++ [t "libfoo.so.1.2.3"] ∧
    (objectFileCallback initialState (t "libfoo.so.1.2.3")).inputFiles =
      initialState.inputFiles := by
  have hshape : specObjSuffix (t "libfoo.so.1.2.3") := by
    right
    refine ⟨t "libfoo", t "so", ['1', '2', '3'], by decide, by decide,
      by decide, by decide, ?_, by simp⟩
    intro d hd
    fin_cases hd <;> decide
  exact C7_object_suffix_routed initialState (t "libfoo.so.1.2.3") []
    (by decide) hshape

/-! ### Claim C4 -/

theorem stripDotDigitPairsRev_no_dot {r : Tok} (h : '.' ∉ r) :
    stripDotDigitPairsRev r = (0, r) := by
  rw [stripDotDigitPairsRev.eq_def]
  split <;> simp_all

/-- C4 (counterexample): the claim says an optimization-level token
never appears in the link-argument accumulator, but inside a bracketed
linker group it is passed through verbatim:
`["-Wl,--start-group", "-O2", "-Wl,--end-group"]` puts `-O2` into
`linkArgs` and records nothing in `forbiddenArgs`. -/
theorem C4_counterexample :
    (classify [t "-Wl,--start-group", t "-O2", t "-Wl,--end-group"]).map
      (fun r => (r.1.linkArgs, r.1.forbiddenArgs, r.1.compileArgs)) =
      some ([t "-Wl,--start-group", t "-O2", t "-Wl,--end-group"], [], []) := by
  decide

/-- C4 (amended): whenever the loop examines, at the head of the queue
and in a non-terminal state, a token equal to `-O`, `-O0`…`-O3`,
`-Os`, `-Ofast`, `-Og`, or `-O` followed by one or more digits, it
records that token in the forbidden-arguments accumulator — leaving
the compile-argument and link-argument accumulators untouched — and
continues with the rest of the queue. -/
theorem C4_opt_flag_routed (s : FilterState) (tok : Tok) (rest : List Tok)
    (hterm : (s.isAssembleOnly || s.isPreprocessOnly) = false)
    (hshape : specOptFlag tok) :
    run s (tok :: rest) =
      (run (warningLinkUnaryCallback s tok) rest).map
        (fun r => (r.1, Ev.flag tok :: r.2.1, r.2.2)) ∧
    (warningLinkUnaryCallback s tok).forbiddenArgs = s.forbiddenArgs ++ [tok] ∧
    (warningLinkUnaryCallback s tok).compileArgs = s.compileArgs ∧
    (warningLinkUnaryCallback s tok).linkArgs = s.linkArgs := by
  refine ⟨?_, rfl, rfl, rfl⟩
  rcases hshape with hmem | ⟨ds, hds, hdig, rfl⟩
  · -- a flag of the exact table
    fin_cases hmem <;>
      exact run_cons_exact0 s _ rest Callback.warningLinkUnary hterm (by decide)
  rcases ds with _ | ⟨c, ds2⟩
  · exact absurd rfl hds
  rcases ds2 with _ | ⟨c2, ds3⟩
  · -- a single digit: `-O0`…`-O3` hit the exact table, the rest the
    -- `^-O[1-9]+$` pattern
    have hc := digit_mem (hdig c (by simp))
    fin_cases hc <;>
      first
        | exact run_cons_exact0 s _ rest Callback.warningLinkUnary hterm (by decide)
        | exact run_cons_pattern0 s _ rest Callback.warningLinkUnary hterm
            (by decide) (by decide) (by decide)
  · -- two or more digits: always a pattern rule
    have hc1 : c.isDigit = true := hdig c (by simp)
    have hc2 : c2.isDigit = true := hdig c2 (by simp)
    have hE : argExactMatches ('-' :: 'O' :: c :: c2 :: ds3) = none := by
      apply lookup_eq_none_of_ne
      intro p hp heq
      have hkeys : ∀ p ∈ defaultArgExactMatches,
          (match p.1 with
           | '-' :: 'O' :: d1 :: d2 :: _ => d1.isDigit && d2.isDigit
           | _ => false) = false := by decide
      have h2 := hkeys p hp
      rw [← heq] at h2
      simp [hc1, hc2] at h2
    have hC : ('-' :: 'O' :: c :: c2 :: ds3) ≠ t "-Wl,--start-group" := by
      intro heq
      rw [show t "-Wl,--start-group" =
        ['-', 'W', 'l', ',', '-', '-', 's', 't', 'a', 'r', 't', '-',
         'g', 'r', 'o', 'u', 'p'] from by decide] at heq
      simp at heq
    have hnodot : '.' ∉ ('-' :: 'O' :: c :: c2 :: ds3) := by
      intro hmem2
      simp only [List.mem_cons] at hmem2
      rcases hmem2 with h | h | h | h | h
      · exact absurd h (by decide)
      · exact absurd h (by decide)
      · exact digit_ne hc1 (by decide) h.symm
      · exact digit_ne hc2 (by decide) h.symm
      · exact absurd (hdig '.' (by simp [h])) (by decide)
    have hnonl : '\n' ∉ ('-' :: 'O' :: c :: c2 :: ds3) := by
      intro hmem2
      simp only [List.mem_cons] at hmem2
      rcases hmem2 with h | h | h | h | h
      · exact absurd h (by decide)
      · exact absurd h (by decide)
      · exact digit_ne hc1 (by decide) h.symm
      · exact digit_ne hc2 (by decide) h.symm
      · exact absurd (hdig '\n' (by simp [h])) (by decide)
    have hlastd : ('-' :: 'O' :: c :: c2 :: ds3).getLast? ≠ some '\n' := by
      intro heq
      exact hnonl (List.mem_of_getLast?_eq_some heq)
    have hns := stripNl_eq_self hlastd
    have hsd : splitLastDot ('-' :: 'O' :: c :: c2 :: ds3) = none :=
      splitLastDot_none hnodot
    have hm1 : matchSrcFile ('-' :: 'O' :: c :: c2 :: ds3) = false := by
      simp [matchSrcFile, matchDotExt, hns, hsd]
    have hm2 : matchFortranFile ('-' :: 'O' :: c :: c2 :: ds3) = false := by
      simp [matchFortranFile, hns, hsd]
    have hm3 : matchObjFile ('-' :: 'O' :: c :: c2 :: ds3) = false := by
      simp [matchObjFile, matchDotExt, hns, hsd]
    have hstripv : stripDotDigitPairsRev (('-' :: 'O' :: c :: c2 :: ds3).reverse) =
        (0, ('-' :: 'O' :: c :: c2 :: ds3).reverse) :=
      stripDotDigitPairsRev_no_dot
        (fun hmem2 => hnodot (List.mem_reverse.mp hmem2))
    have hm4 : matchDylibVersioned ('-' :: 'O' :: c :: c2 :: ds3) = false := by
      simp only [matchDylibVersioned, matchVersioned_eval _ _ _ _ _ hns hstripv]
      simp
    have hm5 : matchSoVersioned ('-' :: 'O' :: c :: c2 :: ds3) = false := by
      simp only [matchSoVersioned, matchVersioned_eval _ _ _ _ _ hns hstripv]
      simp
    have hm7 : matchOptMultiDigit ('-' :: 'O' :: c :: c2 :: ds3) = true := by
      simp only [matchOptMultiDigit, hns]
      simp only [List.all_eq_true, Bool.and_eq_true, decide_eq_true_eq]
      refine ⟨by simp, ?_⟩
      intro x hx
      exact hdig x hx
    have hP : findPattern ('-' :: 'O' :: c :: c2 :: ds3) =
        some (0, Callback.warningLinkUnary) := by
      cases h6 : matchOptNonZero ('-' :: 'O' :: c :: c2 :: ds3) with
      | true => simp [findPattern, defaultArgPatterns, hm1, hm2, hm3, hm4, hm5, h6]
      | false =>
        simp [findPattern, defaultArgPatterns, hm1, hm2, hm3, hm4, hm5, h6, hm7]
    exact run_cons_pattern0 s _ rest Callback.warningLinkUnary hterm hE hC hP

/-- C4 witness: the amended claim at the concrete token `-O2`. -/
theorem C4_witness :
    run initialState [t "-O2"] =
      (run (warningLinkUnaryCallback initialState (t "-O2")) []).map
        (fun r => (r.1, Ev.flag (t "-O2") :: r.2.1, r.2.2)) ∧
    (warningLinkUnaryCallback initialState (t "-O2")).forbiddenArgs =
      initialState.forbiddenArgs ++ [t "-O2"] ∧
    (warningLinkUnaryCallback initialState (t "-O2")).compileArgs =
      initialState.compileArgs ∧
    (warningLinkUnaryCallback initialState (t "-O2")).linkArgs =
      initialState.linkArgs :=
  C4_opt_flag_routed initialState (t "-O2") [] (by decide) (Or.inl (by decide))

/-! ### Lemmas about the path helpers, and claims C9 and C6 -/

theorem pyRfind_not_mem {c : Char} : ∀ {l : Tok}, c ∉ l → pyRfind c l = -1 := by
  intro l
  induction l with
  | nil => intro _; rfl
  | cons x xs ih =>
    intro h
    have hx : x ≠ c := fun heq => h (heq ▸ List.mem_cons_self x xs)
    have hxs : c ∉ xs := fun hm => h (List.mem_cons_of_mem _ hm)
    simp [pyRfind, ih hxs, hx]

theorem pyRfind_append_last {c : Char} {b : Tok} (hb : c ∉ b) :
    ∀ (d : Tok), pyRfind c (d ++ c :: b) = d.length := by
  intro d
  induction d with
  | nil => simp [pyRfind, pyRfind_not_mem hb]
  | cons x xs ih =>
    simp only [List.cons_append, pyRfind, List.append_eq, ih]
    rw [if_pos (by omega : (0 : Int) ≤ (xs.length : Int))]
    simp only [List.length_cons]
    omega

theorem osPathSplit_snd (p : Tok) :
    (osPathSplit p).2 = p.drop (pyRfind '/' p + 1).toNat := by
  simp only [osPathSplit]
  split <;> rfl

/-- The tail of `os.path.split` on a path with a separator is the text
after the last separator. -/
theorem osPathSplit_tail {b : Tok} (hb : '/' ∉ b) (d : Tok) :
    (osPathSplit (d ++ '/' :: b)).2 = b := by
  rw [osPathSplit_snd, pyRfind_append_last hb]
  have h1 : ((d.length : Int) + 1).toNat = d.length + 1 := by omega
  rw [h1, show d ++ '/' :: b = (d ++ ['/']) ++ b from by simp,
    List.drop_left' (by simp)]

/-- The tail of `os.path.split` on a separator-free path is the path
itself. -/
theorem osPathSplit_tail_self {p : Tok} (hp : '/' ∉ p) :
    (osPathSplit p).2 = p := by
  rw [osPathSplit_snd, pyRfind_not_mem hp]
  simp

/-- Computing `os.path.splitext` on a base name of the form `root.ext`, where
the root has some non-dot character and the extension is dot-free,
splits exactly at that last dot. -/
theorem osPathSplitext_closed {r e : Tok} (hr : ∃ c ∈ r, c ≠ '.')
    (hslash : '/' ∉ r ++ '.' :: e) (he : '.' ∉ e) :
    osPathSplitext (r ++ '.' :: e) = (r, '.' :: e) := by
  have hsep : pyRfind '/' (r ++ '.' :: e) = -1 := pyRfind_not_mem hslash
  have hdot : pyRfind '.' (r ++ '.' :: e) = r.length := pyRfind_append_last he r
  simp only [osPathSplitext, hsep, hdot]
  rw [if_pos (by omega : (-1 : Int) < (r.length : Int))]
  have h1 : ((-1 : Int) + 1).toNat = 0 := rfl
  have h2 : ((r.length : Int) - -1 - 1).toNat = r.length := by omega
  rw [h1, h2, List.drop_zero, List.take_left' rfl]
  rw [if_pos ?hany]
  case hany =>
    obtain ⟨c, hc, hcne⟩ := hr
    exact List.any_eq_true.mpr ⟨c, hc, by simp [hcne]⟩
  have h3 : ((r.length : Int)).toNat = r.length := by omega
  rw [h3, List.take_left' rfl, List.drop_left' rfl]

/-! ### Claim C9 -/

/-- C9: for any source path `root.ext` — with or without a directory
prefix, the root containing a non-dot character, and a dot-free,
slash-free final extension — `getArtifactNames` returns the pair
`(root.o, .root.o.bc)`, or `(.root.o, .root.o.bc)` when the hidden
flag is set. -/
theorem C9_artifact_names :
    (∀ (d r e : Tok) (hidden : Bool), (∃ c ∈ r, c ≠ '.') →
      '/' ∉ r → '/' ∉ e → '.' ∉ e →
      getArtifactNames (d ++ '/' :: (r ++ '.' :: e)) hidden =
        ((if hidden then '.' :: (r ++ t ".o") else r ++ t ".o"),
          '.' :: (r ++ t ".o.bc"))) ∧
    (∀ (r e : Tok) (hidden : Bool), (∃ c ∈ r, c ≠ '.') →
      '/' ∉ r → '/' ∉ e → '.' ∉ e →
      getArtifactNames (r ++ '.' :: e) hidden =
        ((if hidden then '.' :: (r ++ t ".o") else r ++ t ".o"),
          '.' :: (r ++ t ".o.bc"))) := by
  constructor
  · intro d r e hidden hr hslashr hslashe he
    have hb : '/' ∉ r ++ '.' :: e := by
      intro hm
      simp only [List.mem_append, List.mem_cons] at hm
      rcases hm with hm | hm | hm
      · exact hslashr hm
      · exact absurd hm (by decide)
      · exact hslashe hm
    simp only [getArtifactNames, osPathSplit_tail hb d,
      osPathSplitext_closed hr hb he]
  · intro r e hidden hr hslashr hslashe he
    have hb : '/' ∉ r ++ '.' :: e := by
      intro hm
      simp only [List.mem_append, List.mem_cons] at hm
      rcases hm with hm | hm | hm
      · exact hslashr hm
      · exact absurd hm (by decide)
      · exact hslashe hm
    simp only [getArtifactNames, osPathSplit_tail_self hb,
      osPathSplitext_closed hr hb he]

/-- C9 witness: `getArtifactNames` with the hidden flag yields
`(".x.o", ".x.o.bc")` both for `"dir/x.cpp"` and for the slash-free
source `"x.cpp"`. -/
theorem C9_witness :
    getArtifactNames (t "dir/x.cpp") true = (t ".x.o", t ".x.o.bc") ∧
    getArtifactNames (t "x.cpp") true = (t ".x.o", t ".x.o.bc") := by
  constructor
  · have h := C9_artifact_names.1 (t "dir") (t "x") (t "cpp") true
      ⟨'x', by decide, by decide⟩ (by decide) (by decide) (by decide)
    rw [show t "dir/x.cpp" = t "dir" ++ '/' :: (t "x" ++ '.' :: t "cpp") from by decide,
      h]
    decide
  · have h := C9_artifact_names.2 (t "x") (t "cpp") true
      ⟨'x', by decide, by decide⟩ (by decide) (by decide) (by decide)
    rw [show t "x.cpp" = t "x" ++ '.' :: t "cpp" from by decide, h]
    decide

/-! ### Claim C6 -/

/-- C6: the output-filename query returns the explicitly recorded
output path when one was set; otherwise, when compile-only is set, the
base name of the first input file with its final extension replaced by
`.o` (shown for paths with and without a directory prefix); otherwise
the default binary name `a.out`.  In particular, classifying
`["-c", "foo.c"]` yields `inputFiles = ["foo.c"]`, compile-only set,
and derived output filename `foo.o`. -/
theorem C6_output_filename :
    (∀ (s : FilterState) (f : Tok), s.outputFilename = some f →
      getOutputFilename s = some f) ∧
    (∀ (s : FilterState) (d r e : Tok) (tl : List Tok),
      s.outputFilename = none → s.isCompileOnly = true →
      s.inputFiles = (d ++ '/' :: (r ++ '.' :: e)) :: tl →
      (∃ c ∈ r, c ≠ '.') → '/' ∉ r → '/' ∉ e → '.' ∉ e →
      getOutputFilename s = some (r ++ t ".o")) ∧
    (∀ (s : FilterState) (r e : Tok) (tl : List Tok),
      s.outputFilename = none → s.isCompileOnly = true →
      s.inputFiles = (r ++ '.' :: e) :: tl →
      (∃ c ∈ r, c ≠ '.') → '/' ∉ r → '/' ∉ e → '.' ∉ e →
      getOutputFilename s = some (r ++ t ".o")) ∧
    (∀ (s : FilterState), s.outputFilename = none → s.isCompileOnly = false →
      getOutputFilename s = some (t "a.out")) ∧
    (classify [t "-c", t "foo.c"]).map
      (fun r => (r.1.inputFiles, r.1.isCompileOnly, getOutputFilename r.1)) =
      some ([t "foo.c"], true, some (t "foo.o")) := by
  refine ⟨?_, ?_, ?_, ?_, by decide⟩
  · intro s f h
    simp [getOutputFilename, h]
  · intro s d r e tl h1 h2 h3 hr hsr hse he
    have hb : '/' ∉ r ++ '.' :: e := by
      intro hm
      simp only [List.mem_append, List.mem_cons] at hm
      rcases hm with hm | hm | hm
      · exact hsr hm
      · exact absurd hm (by decide)
      · exact hse hm
    simp [getOutputFilename, h1, h2, h3, osPathSplit_tail hb d,
      osPathSplitext_closed hr hb he]
  · intro s r e tl h1 h2 h3 hr hsr hse he
    have hb : '/' ∉ r ++ '.' :: e := by
      intro hm
      simp only [List.mem_append, List.mem_cons] at hm
      rcases hm with hm | hm | hm
      · exact hsr hm
      · exact absurd hm (by decide)
      · exact hse hm
    simp [getOutputFilename, h1, h2, h3, osPathSplit_tail_self hb,
      osPathSplitext_closed hr hb he]
  · intro s h1 h2
    simp [getOutputFilename, h1, h2]

/-- C6 witness: each branch of the query at a concrete state, and the
`["-c", "foo.c"]` example. -/
theorem C6_witness :
    getOutputFilename { initialState with outputFilename := some (t "out") } =
      some (t "out") ∧
    getOutputFilename
      { initialState with isCompileOnly := true, inputFiles := [t "dir/x.cpp"] } =
      some (t "x.o") ∧
    getOutputFilename
      { initialState with isCompileOnly := true, inputFiles := [t "foo.c"] } =
      some (t "foo.o") ∧
    getOutputFilename initialState = some (t "a.out") := by
  refine ⟨C6_output_filename.1 _ (t "out") rfl, ?_, ?_,
    C6_output_filename.2.2.2.1 _ rfl rfl⟩
  · have h := C6_output_filename.2.1
      { initialState with isCompileOnly := true, inputFiles := [t "dir/x.cpp"] }
      (t "dir") (t "x") (t "cpp") [] rfl rfl
      (by rw [show t "dir" ++ '/' :: (t "x" ++ '.' :: t "cpp") = t "dir/x.cpp"
        from by decide])
      ⟨'x', by decide, by decide⟩ (by decide) (by decide) (by decide)
    simpa using h
  · have h := C6_output_filename.2.2.1
      { initialState with isCompileOnly := true, inputFiles := [t "foo.c"] }
      (t "foo") (t "c") [] rfl rfl
      (by rw [show t "foo" ++ '.' :: t "c" = t "foo.c" from by decide])
      ⟨'f', by decide, by decide⟩ (by decide) (by decide) (by decide)
    simpa using h
